import Mathlib

/-!
Shallow embedding of the simplegit core: the content-addressable object store
(`core/object.py`), the staging index and tree builder (`core/index.py`), the
reference/HEAD layer (`core/ref.py`) and repository-level commit
(`core/repository.py`).

Modelling conventions:
* Python `bytes` values are `List Nat` (one natural per byte).  Python `str`
  values handled by this program are ASCII, and are modelled as their ASCII
  byte sequences (`.encode()`/`.decode()` become the identity).
* The filesystem owned by the object store is an association list from object
  path to raw file bytes.  An object's path `<objects>/<h[:2]>/<h[2:]>` is in
  bijection with its hash `h`, so files are keyed directly by `h`.  A
  `writeLog` records every `open(path, "wb").write(...)` call, newest first.
* SHA-1 (`hashlib.sha1(...).hexdigest()`) and zlib (`compress`/`decompress`)
  are external primitives; they are passed as function parameters, with their
  contracts (hex output length, `decompress ∘ compress = id`, injectivity)
  as explicit hypotheses where a theorem needs them.
* Code that can raise an uncaught Python exception returns `PyResult`.
-/

namespace SimpleGit

/-- A byte string: one natural number per byte. -/
abbrev Bytes := List Nat

/-- ASCII byte sequence of a string literal (model of `str.encode()`). -/
def ascii (s : String) : Bytes := s.data.map Char.toNat

/-- Result of running a piece of Python code: a value, or an uncaught
exception. -/
inductive PyResult (α : Type) where
  | ok (val : α)
  | exn
deriving DecidableEq, Repr

/-- Model of Python `bytes.find(b, i)` restricted to the suffix starting at
`i`: index of the first occurrence of byte `b`, if any. -/
def pyFind (b : Nat) : Bytes → Option Nat
  | [] => none
  | x :: rest => if x = b then some 0 else (pyFind b rest).map (· + 1)

/-- Model of Python `str.rfind(c)`: index of the last occurrence. -/
def pyRFind (b : Nat) (l : Bytes) : Option Nat :=
  (pyFind b l.reverse).map (fun j => l.length - 1 - j)

/-- Bytes Python `str.strip()` removes (ASCII whitespace). -/
def isPyWs (b : Nat) : Bool := b = 32 || (9 ≤ b && b ≤ 13)

/-- Model of Python `str.strip()`. -/
def pyStrip (l : Bytes) : Bytes :=
  ((l.dropWhile isPyWs).reverse.dropWhile isPyWs).reverse

/-- Accumulator-passing worker for `pySplitWs`. -/
def pySplitWsAux : Bytes → Bytes → List Bytes
  | [], acc => if acc = [] then [] else [acc.reverse]
  | b :: rest, acc =>
    if isPyWs b then
      if acc = [] then pySplitWsAux rest [] else acc.reverse :: pySplitWsAux rest []
    else pySplitWsAux rest (b :: acc)

/-- Model of Python `str.split()` (split on whitespace runs, no empties). -/
def pySplitWs (l : Bytes) : List Bytes := pySplitWsAux l []

/-- Fuel-driven worker for `decimalAscii`; the fuel is an upper bound on the
number of digits, so the `0` case is never reached by `decimalAscii`. -/
def decDigitsF : Nat → Nat → Bytes
  | 0, _ => []
  | fuel + 1, n => if n < 10 then [48 + n] else decDigitsF fuel (n / 10) ++ [48 + n % 10]

/-- ASCII decimal representation of a natural (model of Python `str(n)` for
a non-negative integer, as produced by `f"{obj_type} {len(data)}\0"`). -/
def decimalAscii (n : Nat) : Bytes := decDigitsF (n + 1) n

/-- Association-list lookup (Python `dict` access / `os.path.exists` on the
modelled file map). -/
def lookupAssoc {β : Type} : List (Bytes × β) → Bytes → Option β
  | [], _ => none
  | (k', v') :: rest, k => if k' = k then some v' else lookupAssoc rest k

/-- Association-list update, keeping the position of an existing key and
appending a fresh key at the end — exactly Python `dict` assignment /
overwriting a file at a path. -/
def setAssoc {β : Type} : List (Bytes × β) → Bytes → β → List (Bytes × β)
  | [], k, v => [(k, v)]
  | (k', v') :: rest, k, v =>
    if k' = k then (k, v) :: rest else (k', v') :: setAssoc rest k v

/-- The on-disk objects directory: file contents keyed by object hash, plus a
log of the writes that were performed (newest first). -/
structure ObjectStore where
  files : List (Bytes × Bytes)
  writeLog : List Bytes
deriving DecidableEq, Repr

/-- `GitObject.hash_object` header: `f"{obj_type} {len(data)}\0".encode()`. -/
def encodeHeader (objType : Bytes) (len : Nat) : Bytes :=
  objType ++ [32] ++ decimalAscii len ++ [0]

/-- `GitObject.hash_object(data, obj_type)` (core/object.py, bytes branch of
the `isinstance` test): build `header + data`, hash it, and unconditionally
compress and write it to the object path; returns the hash.  The updated
store is returned alongside. -/
def hash_object (sha1 compress : Bytes → Bytes) (fs : ObjectStore)
    (data objType : Bytes) : Bytes × ObjectStore :=
  let stored := encodeHeader objType data.length ++ data
  let h := sha1 stored
  (h, { files := setAssoc fs.files h (compress stored), writeLog := h :: fs.writeLog })

/-- `GitObject.read_object(sha1)` (core/object.py): a missing path prints a
message and returns `(None, None)`; otherwise the file is decompressed, split
at the first NUL (`data.find(b'\0')`, with the Python `-1` slicing behaviour
when no NUL exists), and the first whitespace-token of the header is the type
(`header.split()[0]`, an uncaught `IndexError` when the header has no
tokens). -/
def read_object (decompress : Bytes → Bytes) (fs : ObjectStore) (h : Bytes) :
    PyResult (Option Bytes × Option Bytes) :=
  match lookupAssoc fs.files h with
  | none => .ok (none, none)
  | some raw =>
    let data := decompress raw
    match pyFind 0 data with
    | some nullIndex =>
      match (pySplitWs (data.take nullIndex)).head? with
      | some objectType => .ok (some objectType, some (data.drop (nullIndex + 1)))
      | none => .exn
    | none =>
      match (pySplitWs data.dropLast).head? with
      | some objectType => .ok (some objectType, some data)
      | none => .exn

/-- Lexicographic order on byte strings (Python `str` comparison on the ASCII
strings this program sorts: tree-entry names). -/
def lexLe : Bytes → Bytes → Bool
  | [], _ => true
  | _ :: _, [] => false
  | a :: as, b :: bs => if a < b then true else if a = b then lexLe as bs else false

/-- Insert `a` after every element `b` of an ascending list with `le b a`;
this is the insertion step of a stable sort. -/
def stableInsert {α : Type} (le : α → α → Bool) (a : α) : List α → List α
  | [] => [a]
  | b :: rest => if le b a then b :: stableInsert le a rest else a :: b :: rest

/-- Stable sort (model of Python `sorted`, which is stable; any correct stable
sort produces the same output). -/
def pySorted {α : Type} (le : α → α → Bool) (l : List α) : List α :=
  l.foldl (fun acc a => stableInsert le a acc) []

/-- A tree entry as handled by `Tree.create`/`Tree.read`:
`(mode, name, sha1-hex)`. -/
abbrev TreeEntry := Bytes × Bytes × Bytes

/-- Comparison used by `sorted(entries, key=lambda x: x[1])`: order by name. -/
def entryNameLe (a b : TreeEntry) : Bool := lexLe a.2.1 b.2.1

/-- Value of an ASCII hex digit, if it is one. -/
def hexVal? (c : Nat) : Option Nat :=
  if 48 ≤ c ∧ c ≤ 57 then some (c - 48)
  else if 97 ≤ c ∧ c ≤ 102 then some (c - 87)
  else if 65 ≤ c ∧ c ≤ 70 then some (c - 55)
  else none

/-- Model of Python `bytes.fromhex` on the hex strings this program feeds it
(no embedded spaces): pairs of hex digits, `none` = `ValueError`. -/
def fromHex? : Bytes → Option Bytes
  | [] => some []
  | [_] => none
  | c1 :: c2 :: rest =>
    match hexVal? c1, hexVal? c2, fromHex? rest with
    | some hi, some lo, some bs => some ((16 * hi + lo) :: bs)
    | _, _, _ => none

/-- ASCII code of a lowercase hex digit (`0`–`f`) for a nibble value. -/
def hexDigit (n : Nat) : Nat := if n < 10 then 48 + n else 87 + n

/-- Model of Python `f"{b:02x}"` for a byte value (`b < 256`, as every element
of a Python `bytes` is). -/
def byteHex (b : Nat) : Bytes := [hexDigit (b / 16 % 16), hexDigit (b % 16)]

/-- `"".join(f"{b:02x}" for b in sha1_bytes)` from `Tree.read`. -/
def bytesToHex (l : Bytes) : Bytes := l.flatMap byteHex

/-- The encoded body of one tree entry inside `Tree.create`:
`f"{mode} {name}\0".encode() + bytes.fromhex(sha1)`. -/
def treeContent : List TreeEntry → Option Bytes
  | [] => some []
  | (mode, name, sha) :: rest =>
    match fromHex? sha, treeContent rest with
    | some raw, some tail => some (mode ++ [32] ++ name ++ [0] ++ raw ++ tail)
    | _, _ => none

/-- `Tree.create(entries)` (core/object.py): concatenate the encoded entries
in name order and store the result as a `tree` object.  `none` from
`bytes.fromhex` is an uncaught `ValueError`. -/
def tree_create (sha1 compress : Bytes → Bytes) (fs : ObjectStore)
    (entries : List TreeEntry) : PyResult (Bytes × ObjectStore) :=
  match treeContent (pySorted entryNameLe entries) with
  | none => .exn
  | some content => .ok (hash_object sha1 compress fs content (ascii "tree"))

/-- Fuel-driven worker for `tree_parse`; each iteration of the source's
`while i < len(content)` loop consumes at least one byte, so fuel
`content.length` (supplied by `tree_parse`) always suffices and the `0` case
is never reached from there. -/
def treeParseF : Nat → Bytes → List TreeEntry
  | 0, _ => []
  | fuel + 1, content =>
    if content = [] then []
    else
      match pyFind 0 content with
      | none => []
      | some nullPos =>
        let modeName := content.take nullPos
        let modeAndName :=
          match pyFind 32 modeName with
          | some spacePos => (modeName.take spacePos, modeName.drop (spacePos + 1))
          | none => (modeName.dropLast, modeName)
        let sha1Bytes := (content.drop (nullPos + 1)).take 20
        (modeAndName.1, modeAndName.2, bytesToHex sha1Bytes) ::
          treeParseF fuel ((content.drop (nullPos + 1)).drop 20)

/-- The entry-parsing loop of `Tree.read` (core/object.py): scan for the NUL
separating `mode name` from the 20-byte digest; a missing NUL breaks out of
the loop, returning the entries accumulated so far.  A missing space makes
`find` return `-1`, so Python's slicing gives `mode = mode_name[:-1]` and
`name = mode_name`. -/
def tree_parse (content : Bytes) : List TreeEntry := treeParseF content.length content

/-- `Tree.read(sha1)` (core/object.py): read the object, raise `ValueError`
unless its type is `tree`, and parse the entries. -/
def tree_read (decompress : Bytes → Bytes) (fs : ObjectStore) (h : Bytes) :
    PyResult (List TreeEntry) :=
  match read_object decompress fs h with
  | .exn => .exn
  | .ok (objType, content) =>
    if objType = some (ascii "tree") then
      match content with
      | some c => .ok (tree_parse c)
      | none => .exn
    else .exn

/-- `os.path.split` (posixpath): split at the last `/`; the head keeps, then
strips, trailing slashes unless it consists only of slashes. -/
def os_path_split (p : Bytes) : Bytes × Bytes :=
  let i := match pyRFind 47 p with | none => 0 | some k => k + 1
  let head := p.take i
  let tail := p.drop i
  let head' :=
    if head ≠ [] ∧ head.any (· ≠ 47) then (head.reverse.dropWhile (· = 47)).reverse
    else head
  (head', tail)

/-- One staged file as recorded by `Index._add_file`.  The source also stores
`size` and `mtime`; they are never read by tree building (the only indexed
operation the claims concern), so only `sha1` (hex) and `mode` are modelled. -/
structure IndexEntry where
  sha1 : Bytes
  mode : Bytes
deriving DecidableEq, Repr

/-- The `dirs` map built by `Index.write_tree`: an insertion-ordered dict from
directory name to an insertion-ordered dict of `filename ↦ entry`. -/
abbrev Dirs := List (Bytes × List (Bytes × IndexEntry))

/-- `dirs[dirname][filename] = file_info` on a `defaultdict(dict)`. -/
def dirsInsert (dirs : Dirs) (d f : Bytes) (info : IndexEntry) : Dirs :=
  setAssoc dirs d (setAssoc ((lookupAssoc dirs d).getD []) f info)

/-- Reading `dirs[path]` on the `defaultdict` (missing key gives `{}`; the
key the real `defaultdict` then inserts never matches any later
`startswith(path + "/")` test, so the mutation is unobservable and the map
can stay unchanged). -/
def dirsGet (dirs : Dirs) (path : Bytes) : List (Bytes × IndexEntry) :=
  (lookupAssoc dirs path).getD []

/-- The grouping loop of `Index.write_tree`: split every staged path into
`(dirname, filename)` and file it under its directory (the source's
`if dirname` branch writes to `dirs[dirname]` and the `else` branch to
`dirs[""]`, which is the same assignment). -/
def indexGroup (entries : List (Bytes × IndexEntry)) : Dirs :=
  entries.foldl
    (fun dirs pe => dirsInsert dirs (os_path_split pe.1).1 (os_path_split pe.1).2 pe.2)
    []

/-- Longest directory key in `dirs`, used to bound the recursion depth of
`write_tree_rec` (each recursive call strictly lengthens `path`). -/
def maxKeyLen (dirs : Dirs) : Nat := (dirs.map (fun kv => kv.1.length)).foldr max 0

/-- Fuel-driven worker for `Index._write_tree_recursive` (core/index.py):
collect the file entries of `path`, recurse into every key that extends
`path + "/"` (threading the object store through the writes, appending a
directory entry per such key), sort by name, and create the tree object.
Each recursive call's `path` is strictly longer, so fuel
`maxKeyLen dirs + 1` (supplied by `write_tree`) always suffices. -/
def writeTreeRecF (sha1 compress : Bytes → Bytes) (dirs : Dirs) :
    Nat → Bytes → ObjectStore → PyResult (Bytes × ObjectStore)
  | 0, _, _ => .exn
  | fuel + 1, path, fs =>
    let fileEntries : List TreeEntry :=
      (dirsGet dirs path).map (fun fi => (fi.2.mode, fi.1, fi.2.sha1))
    let subdirs := (dirs.map Prod.fst).filter
      (fun d => (path ++ [47]).isPrefixOf d && d ≠ path)
    let step := subdirs.foldl
      (fun (acc : PyResult (List TreeEntry × ObjectStore)) d =>
        match acc with
        | .exn => .exn
        | .ok (es, fs') =>
          match writeTreeRecF sha1 compress dirs fuel d fs' with
          | .exn => .exn
          | .ok (subSha, fs'') =>
            .ok (es ++ [(ascii "040000", (os_path_split d).2, subSha)], fs''))
      (.ok (fileEntries, fs))
    match step with
    | .exn => .exn
    | .ok (entries, fs') => tree_create sha1 compress fs' (pySorted entryNameLe entries)

/-- `Index.write_tree` (core/index.py): group the index by directory and
build trees from the root. -/
def write_tree (sha1 compress : Bytes → Bytes)
    (entries : List (Bytes × IndexEntry)) (fs : ObjectStore) :
    PyResult (Bytes × ObjectStore) :=
  let dirs := indexGroup entries
  writeTreeRecF sha1 compress dirs (maxKeyLen dirs + 1) [] fs

/-- Repository state touched by the ref layer and `commit`: the object store,
the staged index (`path ↦ entry`, insertion-ordered), the contents of the
`HEAD` file if present, and the ref files keyed by their path relative to the
metadata directory (e.g. `refs/heads/master`). -/
structure Repo where
  objects : ObjectStore
  indexEntries : List (Bytes × IndexEntry)
  headFile : Option Bytes
  refFiles : List (Bytes × Bytes)
deriving DecidableEq, Repr

/-- `Repository.init` (core/repository.py) on a fresh directory: empty object
store and index, no refs, `HEAD` containing `ref: refs/heads/master`. -/
def repositoryInit : Repo :=
  { objects := ⟨[], []⟩, indexEntries := [],
    headFile := some (ascii "ref: refs/heads/master"), refFiles := [] }

/-- `Reference.update_ref` (core/ref.py): `safe_write(ref_path, f"{sha1}\n")`. -/
def update_ref (repo : Repo) (refName sha : Bytes) : Repo :=
  { repo with refFiles := setAssoc repo.refFiles refName (sha ++ [10]) }

/-- `Reference.get_ref` (core/ref.py): `None` when the file is missing,
otherwise the stripped file contents. -/
def get_ref (repo : Repo) (refName : Bytes) : Option Bytes :=
  (lookupAssoc repo.refFiles refName).map pyStrip

/-- `Reference.create_branch`. -/
def create_branch (repo : Repo) (branchName sha : Bytes) : Repo :=
  update_ref repo (ascii "refs/heads/" ++ branchName) sha

/-- `Reference.get_branch`. -/
def get_branch (repo : Repo) (branchName : Bytes) : Option Bytes :=
  get_ref repo (ascii "refs/heads/" ++ branchName)

/-- `os.path.exists` on a path inside the modelled ref tree: the path is an
existing ref file, or an existing *directory*, i.e. some ref file lives
strictly below it (its path extends `p` at a `/` boundary).  Directories
exist on disk exactly when `ensure_dir` created them for such a file. -/
def refPathExists (refFiles : List (Bytes × Bytes)) (p : Bytes) : Bool :=
  (lookupAssoc refFiles p).isSome ||
    refFiles.any (fun kv => (p ++ [47]).isPrefixOf kv.1)

/-- `Reference.update_HEAD` (core/ref.py): a target that is
`refs/heads/`-prefixed or for which `refs/heads/<target>` exists (as a ref
file, or as a directory holding nested refs) becomes a symbolic
`ref: refs/heads/<branch>`; anything else is written verbatim (detached). -/
def update_HEAD (repo : Repo) (target : Bytes) : Repo :=
  let heads := ascii "refs/heads/"
  let content :=
    if heads.isPrefixOf target ∨ refPathExists repo.refFiles (heads ++ target) then
      if heads.isPrefixOf target then ascii "ref: " ++ target
      else ascii "ref: " ++ heads ++ target
    else target
  { repo with headFile := some content }

/-- `Reference.get_HEAD` (core/ref.py): `(False, None)` if `HEAD` is missing;
a stripped `ref: `-prefixed content yields `(False, branch)` (also stripping
a `refs/heads/` prefix); anything else is detached: `(True, content)`. -/
def get_HEAD (repo : Repo) : Bool × Option Bytes :=
  match repo.headFile with
  | none => (false, none)
  | some raw =>
    let content := pyStrip raw
    if (ascii "ref: ").isPrefixOf content then
      let ref := content.drop 5
      let branch := if (ascii "refs/heads/").isPrefixOf ref then ref.drop 11 else ref
      (false, some branch)
    else (true, some content)

/-- Python's rendering of an `Optional[str]` interpolated into an f-string
(`f"refs/heads/{branch_name}"` with `branch_name = None` gives `None`). -/
def pyFmtOpt (o : Option Bytes) : Bytes := o.getD (ascii "None")

/-- `Reference.resolve_HEAD` (core/ref.py): the stored hash when detached,
otherwise the value of the branch ref (or `None` for a branch with no
commits). -/
def resolve_HEAD (repo : Repo) : Option Bytes :=
  match get_HEAD repo with
  | (true, target) => target
  | (false, target) => get_branch repo (pyFmtOpt target)

/-- The optional `parent <hash>\n` line of a commit body: absent for a
`None` or empty parent (Python `if parent:`). -/
def parentLine : Option Bytes → Bytes
  | some p => if p = [] then [] else ascii "parent " ++ p ++ [10]
  | none => []

/-- The commit body built by `Commit.create` (core/object.py) with the
default author/committer and the hard-coded timezone; `timestamp` stands for
`int(time.time())`. -/
def commitContent (treeSha message : Bytes) (parent : Option Bytes)
    (timestamp : Nat) : Bytes :=
  let author := ascii "SimpleGit User <user@example.com>"
  let timezone := ascii "-0500"
  ascii "tree " ++ treeSha ++ [10]
  ++ parentLine parent
  ++ ascii "author " ++ author ++ [32] ++ decimalAscii timestamp ++ [32] ++ timezone ++ [10]
  ++ ascii "committer " ++ author ++ [32] ++ decimalAscii timestamp ++ [32] ++ timezone ++ [10]
  ++ [10] ++ message ++ [10]

/-- `Commit.create`: build the commit body and store it as a `commit`
object. -/
def commit_create (sha1 compress : Bytes → Bytes) (fs : ObjectStore)
    (treeSha message : Bytes) (parent : Option Bytes) (timestamp : Nat) :
    Bytes × ObjectStore :=
  hash_object sha1 compress fs (commitContent treeSha message parent timestamp)
    (ascii "commit")

/-- `Repository.commit(message)` (core/repository.py): an empty message
aborts before anything is written; then the index is written as a tree (a
falsy — empty — tree hash aborts with "Nothing to commit"); the commit object
is created with the resolved `HEAD` as parent; finally `HEAD` itself (if
detached) or the current branch is pointed at the new commit. -/
def repositoryCommit (sha1 compress : Bytes → Bytes) (repo : Repo)
    (message : Bytes) (timestamp : Nat) : PyResult (Option Bytes × Repo) :=
  if message = [] then .ok (none, repo)
  else
    match write_tree sha1 compress repo.indexEntries repo.objects with
    | .exn => .exn
    | .ok (treeSha, fs1) =>
      if treeSha = [] then .ok (none, { repo with objects := fs1 })
      else
        let repo1 := { repo with objects := fs1 }
        let headSha := resolve_HEAD repo1
        let (commitSha, fs2) :=
          commit_create sha1 compress fs1 treeSha message headSha timestamp
        let repo2 := { repo1 with objects := fs2 }
        match get_HEAD repo2 with
        | (true, _) => .ok (some commitSha, update_HEAD repo2 commitSha)
        | (false, target) =>
          .ok (some commitSha, create_branch repo2 (pyFmtOpt target) commitSha)

/-- Lowercase hex digits, as produced by `hashlib.sha1(...).hexdigest()`. -/
def isLowerHex (c : Nat) : Bool := (48 ≤ c && c ≤ 57) || (97 ≤ c && c ≤ 102)

/-- A tree entry as the system itself produces them: NUL-free space-free
mode, NUL-free name, 40-character lowercase-hex hash. -/
def entryWf (e : TreeEntry) : Prop :=
  (∀ b ∈ e.1, b ≠ 0) ∧ (∀ b ∈ e.1, b ≠ 32) ∧ (∀ b ∈ e.2.1, b ≠ 0) ∧
  (∀ c ∈ e.2.2, isLowerHex c = true) ∧ e.2.2.length = 40

instance entryWfDecidable (e : TreeEntry) : Decidable (entryWf e) :=
  decidable_of_iff ((∀ b ∈ e.1, b ≠ 0) ∧ (∀ b ∈ e.1, b ≠ 32) ∧ (∀ b ∈ e.2.1, b ≠ 0) ∧
    (∀ c ∈ e.2.2, isLowerHex c = true) ∧ e.2.2.length = 40) Iff.rfl


/-- Occurrence count of an entry, used to separate permutation classes. -/
def countEntry (x : TreeEntry) : List TreeEntry → Nat
  | [] => 0
  | e :: rest => (if e = x then 1 else 0) + countEntry x rest


/-- The files `Index.write_tree`'s grouping assigns to directory `d`, in
scan order with dict-overwrite semantics still to be applied. -/
def dirFilesOf (d : Bytes) (l : List (Bytes × IndexEntry)) : List (Bytes × IndexEntry) :=
  l.filterMap (fun pe =>
    if (os_path_split pe.1).1 = d then some ((os_path_split pe.1).2, pe.2) else none)


/-- An injective, executable stand-in for the SHA-1 primitive, used by
witnesses: the input is packed injectively into the first of 40 output
values. -/
def natPairList : Bytes → Nat
  | [] => 0
  | a :: rest => Nat.pair a (natPairList rest) + 1


/-- Witness hash function: injective with constant output length 40. -/
def sha1w (l : Bytes) : Bytes := natPairList l :: List.replicate 39 0


/-! ### Basic lemmas about the association-list file maps -/

theorem lookupAssoc_setAssoc_self {β : Type} (l : List (Bytes × β)) (k : Bytes) (v : β) :
    lookupAssoc (setAssoc l k v) k = some v := by
  induction l with
  | nil => simp [setAssoc, lookupAssoc]
  | cons kv rest ih =>
    obtain ⟨k', v'⟩ := kv
    by_cases h : k' = k
    · simp [setAssoc, lookupAssoc, h]
    · simp [setAssoc, lookupAssoc, h, ih]

theorem setAssoc_setAssoc_self {β : Type} (l : List (Bytes × β)) (k : Bytes) (v : β) :
    setAssoc (setAssoc l k v) k v = setAssoc l k v := by
  induction l with
  | nil => simp [setAssoc]
  | cons kv rest ih =>
    obtain ⟨k', v'⟩ := kv
    by_cases h : k' = k
    · simp [setAssoc, h]
    · simp [setAssoc, h, ih]

theorem setAssoc_of_lookup_none {β : Type} (l : List (Bytes × β)) (k : Bytes) (v : β)
    (h : lookupAssoc l k = none) : setAssoc l k v = l ++ [(k, v)] := by
  induction l with
  | nil => simp [setAssoc]
  | cons kv rest ih =>
    obtain ⟨k', v'⟩ := kv
    by_cases hk : k' = k
    · simp [lookupAssoc, hk] at h
    · simp [lookupAssoc, hk] at h
      simp [setAssoc, hk, ih h]

/-! ### Lemmas about the byte-level helpers -/

theorem pyFind_append_first (b : Nat) (l₁ l₂ : Bytes) (h : ∀ x ∈ l₁, x ≠ b) :
    pyFind b (l₁ ++ b :: l₂) = some l₁.length := by
  induction l₁ with
  | nil => simp [pyFind]
  | cons x rest ih =>
    have hx : x ≠ b := h x (by simp)
    simp [pyFind, hx, ih (fun y hy => h y (by simp [hy]))]

theorem pyFind_eq_none (b : Nat) (l : Bytes) (h : ∀ x ∈ l, x ≠ b) :
    pyFind b l = none := by
  induction l with
  | nil => simp [pyFind]
  | cons x rest ih =>
    have hx : x ≠ b := h x (by simp)
    simp [pyFind, hx, ih (fun y hy => h y (by simp [hy]))]

theorem pySplitWsAux_token (t : Bytes) (rest : Bytes) :
    ∀ acc : Bytes, (∀ x ∈ t, isPyWs x = false) → (acc ≠ [] ∨ t ≠ []) →
    pySplitWsAux (t ++ 32 :: rest) acc = (acc.reverse ++ t) :: pySplitWsAux rest [] := by
  induction t with
  | nil =>
    intro acc _ hne
    rcases hne with h | h
    · simp [pySplitWsAux, isPyWs, h]
    · simp at h
  | cons x xs ih =>
    intro acc hws _
    have hx : isPyWs x = false := hws x (by simp)
    have step : pySplitWsAux ((x :: xs) ++ 32 :: rest) acc
        = pySplitWsAux (xs ++ 32 :: rest) (x :: acc) := by
      simp [pySplitWsAux, hx]
    rw [step, ih (x :: acc) (fun y hy => hws y (by simp [hy])) (Or.inl (by simp))]
    simp

theorem decDigitsF_range (fuel : Nat) : ∀ n : Nat, ∀ b ∈ decDigitsF fuel n, 48 ≤ b ∧ b ≤ 57 := by
  induction fuel with
  | zero => intro n b hb; simp [decDigitsF] at hb
  | succ f ih =>
    intro n b hb
    by_cases h : n < 10
    · simp [decDigitsF, h] at hb
      omega
    · simp [decDigitsF, h] at hb
      have hm : n % 10 < 10 := Nat.mod_lt n (by norm_num)
      rcases hb with hb | hb
      · exact ih _ b hb
      · omega

theorem decimalAscii_range (n : Nat) : ∀ b ∈ decimalAscii n, 48 ≤ b ∧ b ≤ 57 :=
  decDigitsF_range (n + 1) n

theorem decimalAscii_ne_zero (n : Nat) : ∀ b ∈ decimalAscii n, b ≠ 0 := by
  intro b hb
  have := decimalAscii_range n b hb
  omega

theorem decimalAscii_not_ws (n : Nat) : ∀ b ∈ decimalAscii n, isPyWs b = false := by
  intro b hb
  have := decimalAscii_range n b hb
  simp [isPyWs]
  omega

/-! ### Reading back a freshly stored object -/

/-- The header-plus-payload buffer written by `hash_object`, with the header
exposed as `tokens ++ NUL ++ payload`. -/
theorem encodeHeader_append (objType : Bytes) (n : Nat) (payload : Bytes) :
    encodeHeader objType n ++ payload
      = (objType ++ 32 :: decimalAscii n) ++ 0 :: payload := by
  simp [encodeHeader]

theorem take_len_append (A B : Bytes) : (A ++ B).take A.length = A := by
  induction A with
  | nil => simp
  | cons a as ih => simp [ih]

theorem drop_len_cons_append (A B : Bytes) (c : Nat) :
    (A ++ c :: B).drop (A.length + 1) = B := by
  induction A with
  | nil => simp
  | cons a as ih => simp [ih]

/-- Reading any stored file whose decompressed bytes have the shape
`type ++ SP ++ digits ++ NUL ++ payload` returns the type tag and the raw
payload — regardless of what the digits declare. -/
theorem read_object_parse (decompress : Bytes → Bytes) (fs : ObjectStore)
    (h raw objType digits payload : Bytes)
    (hlook : lookupAssoc fs.files h = some raw)
    (hdec : decompress raw = objType ++ 32 :: (digits ++ 0 :: payload))
    (hnzT : ∀ b ∈ objType, b ≠ 0) (hnzD : ∀ b ∈ digits, b ≠ 0)
    (hws : ∀ b ∈ objType, isPyWs b = false) (hne : objType ≠ []) :
    read_object decompress fs h = .ok (some objType, some payload) := by
  have hform : decompress raw = (objType ++ 32 :: digits) ++ 0 :: payload := by
    rw [hdec]; simp
  have hpre0 : ∀ x ∈ objType ++ 32 :: digits, x ≠ 0 := by
    intro x hx
    simp at hx
    rcases hx with hx | hx | hx
    · exact hnzT x hx
    · omega
    · exact hnzD x hx
  have hsplit0 : (pySplitWs (objType ++ 32 :: digits)).head? = some objType := by
    rw [pySplitWs, pySplitWsAux_token objType digits [] hws (Or.inr hne)]
    simp
  simp only [read_object, hlook, hform]
  generalize objType ++ 32 :: digits = A at hpre0 hsplit0
  rw [pyFind_append_first 0 A payload hpre0]
  simp [take_len_append, drop_len_cons_append, hsplit0]

theorem read_object_hash_object (sha1 compress decompress : Bytes → Bytes)
    (hcodec : ∀ x, decompress (compress x) = x) (fs : ObjectStore)
    (payload objType : Bytes) (hnz : ∀ b ∈ objType, b ≠ 0)
    (hws : ∀ b ∈ objType, isPyWs b = false) (hne : objType ≠ []) :
    read_object decompress (hash_object sha1 compress fs payload objType).2
      (hash_object sha1 compress fs payload objType).1 =
      .ok (some objType, some payload) := by
  apply read_object_parse decompress _ _
      (compress (encodeHeader objType payload.length ++ payload))
      objType (decimalAscii payload.length) payload
  · exact lookupAssoc_setAssoc_self _ _ _
  · rw [hcodec, encodeHeader_append]
    simp
  · exact hnz
  · exact decimalAscii_ne_zero _
  · exact hws
  · exact hne

/-! ### C1: store/load round trip -/

/-- C1: for every payload `p` (arbitrary bytes, NULs included) and type tag in
`{blob, tree, commit}`, reading back the object just stored with
`GitObject.hash_object` via `GitObject.read_object` yields exactly the stored
type and payload, given the zlib round-trip contract. -/
theorem C1_store_load_round_trip (sha1 compress decompress : Bytes → Bytes)
    (hcodec : ∀ x, decompress (compress x) = x) (fs : ObjectStore)
    (payload objType : Bytes)
    (htype : objType = ascii "blob" ∨ objType = ascii "tree" ∨ objType = ascii "commit") :
    read_object decompress (hash_object sha1 compress fs payload objType).2
      (hash_object sha1 compress fs payload objType).1 =
      .ok (some objType, some payload) := by
  apply read_object_hash_object sha1 compress decompress hcodec fs payload objType
  · rcases htype with h | h | h <;> subst h <;> decide
  · rcases htype with h | h | h <;> subst h <;> decide
  · rcases htype with h | h | h <;> subst h <;> decide

/-- C1 witness: the round trip evaluated on the concrete payload
`[104, 0, 105]` (which contains a NUL byte), with the identity codec. -/
theorem C1_store_load_round_trip_witness :
    read_object (fun x => x)
        (hash_object (fun x => x) (fun x => x) ⟨[], []⟩ [104, 0, 105] (ascii "blob")).2
        (hash_object (fun x => x) (fun x => x) ⟨[], []⟩ [104, 0, 105] (ascii "blob")).1
      = .ok (some (ascii "blob"), some [104, 0, 105]) :=
  C1_store_load_round_trip (fun x => x) (fun x => x) (fun x => x)
    (fun _ => rfl) ⟨[], []⟩ [104, 0, 105] (ascii "blob") (Or.inl rfl)

/-! ### C3: idempotence of store, and the missing existence check -/

/-- C3 counterexample: after the first `hash_object` call the object file
exists, yet the second identical call still performs a write (the write log
grows to two entries) — so the write is *not* "performed only if the object
file is absent"; `hash_object` contains no existence check. -/
theorem C3_counterexample_second_write_performed :
    (lookupAssoc (hash_object (fun x => x) (fun x => x) ⟨[], []⟩ [] (ascii "blob")).2.files
        (hash_object (fun x => x) (fun x => x) ⟨[], []⟩ [] (ascii "blob")).1).isSome = true ∧
    (hash_object (fun x => x) (fun x => x)
        (hash_object (fun x => x) (fun x => x) ⟨[], []⟩ [] (ascii "blob")).2
        [] (ascii "blob")).2.writeLog.length = 2 := by
  decide

/-- C3 (amended): `hash_object` is idempotent in its observable result —
storing the same `(payload, type)` twice returns the same hash and leaves the
on-disk file map byte-for-byte unchanged — but the (identical) object file is
rewritten unconditionally on every call; there is no existence check. -/
theorem C3_store_idempotent_but_always_writes (sha1 compress : Bytes → Bytes)
    (fs : ObjectStore) (payload objType : Bytes) :
    (hash_object sha1 compress
        (hash_object sha1 compress fs payload objType).2 payload objType).1
      = (hash_object sha1 compress fs payload objType).1 ∧
    (hash_object sha1 compress
        (hash_object sha1 compress fs payload objType).2 payload objType).2.files
      = (hash_object sha1 compress fs payload objType).2.files ∧
    (hash_object sha1 compress
        (hash_object sha1 compress fs payload objType).2 payload objType).2.writeLog
      = (hash_object sha1 compress fs payload objType).1
          :: (hash_object sha1 compress fs payload objType).2.writeLog := by
  refine ⟨rfl, ?_, rfl⟩
  simp [hash_object, setAssoc_setAssoc_self]

/-! ### C4: read_object on missing objects and corrupted headers -/

/-- C4 counterexample: `read_object` of an absent hash returns the *normal*
value `(None, None)` (model: `.ok (none, none)`), not an `ObjectNotFound`
failure; and an existing object whose header declares length `99` for a
2-byte payload is returned as-is (no `CorruptObject`, no length check). -/
theorem C4_counterexample_no_failure :
    read_object (fun x => x) ⟨[], []⟩ (ascii "0123456789abcdef0123456789abcdef01234567")
      = .ok (none, none) ∧
    read_object (fun x => x)
        ⟨[(ascii "k", ascii "blob 99" ++ 0 :: [97, 98])], []⟩ (ascii "k")
      = .ok (some (ascii "blob"), some [97, 98]) := by
  decide

/-- C4 (amended): `read_object` returns the normal value `(None, None)`
whenever the object path does not exist (after printing a message), and it
performs no length validation: any stored object decompressing to
`type SP digits NUL payload` is returned as `(type, payload)` no matter what
number the digits declare. -/
theorem C4_read_object_missing_and_unvalidated (decompress : Bytes → Bytes)
    (fs : ObjectStore) :
    (∀ h, lookupAssoc fs.files h = none →
      read_object decompress fs h = .ok (none, none)) ∧
    (∀ h raw objType declared payload,
      lookupAssoc fs.files h = some raw →
      decompress raw = objType ++ 32 :: (decimalAscii declared ++ 0 :: payload) →
      (∀ b ∈ objType, b ≠ 0) → (∀ b ∈ objType, isPyWs b = false) → objType ≠ [] →
      read_object decompress fs h = .ok (some objType, some payload)) := by
  constructor
  · intro h hmiss
    simp [read_object, hmiss]
  · intro h raw objType declared payload hlook hdec hnz hws hne
    exact read_object_parse decompress fs h raw objType (decimalAscii declared) payload
      hlook hdec hnz (decimalAscii_ne_zero declared) hws hne

/-- C4 witness: both parts of the amended statement applied at concrete
inputs — an empty store, and a store holding one object whose header lies
about the payload length (`blob 7` over a 3-byte payload). -/
theorem C4_read_object_missing_and_unvalidated_witness :
    read_object (fun x => x)
        ⟨[(ascii "h0", ascii "blob 7" ++ 0 :: [120, 121, 122])], []⟩ (ascii "nope")
      = .ok (none, none) ∧
    read_object (fun x => x)
        ⟨[(ascii "h0", ascii "blob 7" ++ 0 :: [120, 121, 122])], []⟩ (ascii "h0")
      = .ok (some (ascii "blob"), some [120, 121, 122]) := by
  constructor
  · exact (C4_read_object_missing_and_unvalidated (fun x => x)
      ⟨[(ascii "h0", ascii "blob 7" ++ 0 :: [120, 121, 122])], []⟩).1
      (ascii "nope") (by decide)
  · exact (C4_read_object_missing_and_unvalidated (fun x => x)
      ⟨[(ascii "h0", ascii "blob 7" ++ 0 :: [120, 121, 122])], []⟩).2
      (ascii "h0") (ascii "blob 7" ++ 0 :: [120, 121, 122]) (ascii "blob") 7
      [120, 121, 122] (by decide) (by decide) (by decide) (by decide) (by decide)

/-! ### C7: commit with an empty message -/

/-- C7: `Repository.commit` with the empty message aborts before writing
anything: it returns the "no commit" value and the entire repository state —
object files and write log included — is unchanged. -/
theorem C7_empty_message_writes_nothing (sha1 compress : Bytes → Bytes)
    (repo : Repo) (timestamp : Nat) :
    repositoryCommit sha1 compress repo [] timestamp = .ok (none, repo) := by
  simp [repositoryCommit]

/-! ### C9: resolve_HEAD on a fresh repository -/

/-- C9: on a freshly initialized repository (symbolic `HEAD` at
`refs/heads/master`, which has no ref file yet) `resolve_HEAD` returns the
"no commit" value `None` rather than failing — the signal for a first,
parentless commit. -/
theorem C9_resolve_HEAD_fresh_repo_none :
    resolve_HEAD repositoryInit = none := by
  decide

/-! ### Tree-entry parsing lemmas -/

theorem treeParseF_nil_of_no_nul (fuel : Nat) (g : Bytes) (hg : ∀ b ∈ g, b ≠ 0) :
    treeParseF fuel g = [] := by
  cases fuel with
  | zero => rfl
  | succ f =>
    by_cases hne : g = []
    · simp [treeParseF, hne]
    · simp [treeParseF, hne, pyFind_eq_none 0 g hg]

/-- One well-formed entry at the front of the buffer parses to
`(mode, name, hex-of-20-byte-digest)` and the loop continues past it. -/
theorem treeParseF_cons (fuel : Nat) (mode name sha rest : Bytes)
    (hm0 : ∀ b ∈ mode, b ≠ 0) (hm32 : ∀ b ∈ mode, b ≠ 32)
    (hn0 : ∀ b ∈ name, b ≠ 0) (hsha : sha.length = 20) :
    treeParseF (fuel + 1) (mode ++ 32 :: (name ++ 0 :: (sha ++ rest)))
      = (mode, name, bytesToHex sha) :: treeParseF fuel rest := by
  have hshape : mode ++ 32 :: (name ++ 0 :: (sha ++ rest))
      = (mode ++ 32 :: name) ++ 0 :: (sha ++ rest) := by simp
  rw [hshape]
  have hne : (mode ++ 32 :: name) ++ 0 :: (sha ++ rest) ≠ [] := by simp
  have hmn0 : ∀ x ∈ mode ++ 32 :: name, x ≠ 0 := by
    intro x hx
    simp at hx
    rcases hx with hx | hx | hx
    · exact hm0 x hx
    · omega
    · exact hn0 x hx
  have hfind32 : pyFind 32 (mode ++ 32 :: name) = some mode.length :=
    pyFind_append_first 32 mode name hm32
  have htakeM : (mode ++ 32 :: name).take mode.length = mode :=
    take_len_append mode (32 :: name)
  have hdropM : (mode ++ 32 :: name).drop (mode.length + 1) = name :=
    drop_len_cons_append mode name 32
  have htakeS : (sha ++ rest).take 20 = sha := by
    rw [← hsha]
    exact take_len_append sha rest
  have hdropS : (sha ++ rest).drop 20 = rest := by
    have h3 : (sha ++ rest).drop sha.length = rest := by
      induction sha with
      | nil => simp
      | cons a as ih => simp [ih]
    rwa [hsha] at h3
  rw [treeParseF, if_neg hne, pyFind_append_first 0 _ _ hmn0]
  simp only [take_len_append, drop_len_cons_append, hfind32, htakeM, hdropM, htakeS, hdropS]

theorem tree_parse_single_then_garbage (mode name sha garbage : Bytes)
    (hm0 : ∀ b ∈ mode, b ≠ 0) (hm32 : ∀ b ∈ mode, b ≠ 32)
    (hn0 : ∀ b ∈ name, b ≠ 0) (hsha : sha.length = 20)
    (hg : ∀ b ∈ garbage, b ≠ 0) :
    tree_parse (mode ++ 32 :: (name ++ 0 :: (sha ++ garbage)))
      = [(mode, name, bytesToHex sha)] := by
  have hpos : 1 ≤ (mode ++ 32 :: (name ++ 0 :: (sha ++ garbage))).length := by
    simp
    omega
  rw [tree_parse, ← Nat.sub_add_cancel hpos,
    treeParseF_cons _ mode name sha garbage hm0 hm32 hn0 hsha,
    treeParseF_nil_of_no_nul _ garbage hg]

/-! ### C5: Tree.read never signals corruption, it truncates silently -/

/-- C5 counterexample: a stored tree payload holding one well-formed entry
followed by `100644 b` with its NUL terminator missing; `Tree.read` returns
the one parsed entry — a silent partial result, not a `CorruptObject`
failure. -/
theorem C5_counterexample_partial_result :
    tree_read (fun x => x)
        (hash_object (fun x => x) (fun x => x) ⟨[], []⟩
          (ascii "100644 a" ++ 0 :: (List.replicate 20 7 ++ ascii "100644 b"))
          (ascii "tree")).2
        (hash_object (fun x => x) (fun x => x) ⟨[], []⟩
          (ascii "100644 a" ++ 0 :: (List.replicate 20 7 ++ ascii "100644 b"))
          (ascii "tree")).1
      = .ok [(ascii "100644", ascii "a", bytesToHex (List.replicate 20 7))] := by
  decide

/-- C5 (amended): on a tree payload consisting of a well-formed entry
followed by a NUL-less tail, `Tree.read` silently returns just the entries
before the malformed tail (the loop `break`s); no error of any kind is
signalled. -/
theorem C5_tree_read_truncates_silently (sha1 compress decompress : Bytes → Bytes)
    (hcodec : ∀ x, decompress (compress x) = x) (fs : ObjectStore)
    (mode name sha garbage : Bytes)
    (hm0 : ∀ b ∈ mode, b ≠ 0) (hm32 : ∀ b ∈ mode, b ≠ 32)
    (hn0 : ∀ b ∈ name, b ≠ 0) (hsha : sha.length = 20)
    (hg : ∀ b ∈ garbage, b ≠ 0) (_hgne : garbage ≠ []) :
    tree_read decompress
        (hash_object sha1 compress fs
          (mode ++ 32 :: (name ++ 0 :: (sha ++ garbage))) (ascii "tree")).2
        (hash_object sha1 compress fs
          (mode ++ 32 :: (name ++ 0 :: (sha ++ garbage))) (ascii "tree")).1
      = .ok [(mode, name, bytesToHex sha)] := by
  have hread := read_object_hash_object sha1 compress decompress hcodec fs
    (mode ++ 32 :: (name ++ 0 :: (sha ++ garbage))) (ascii "tree")
    (by decide) (by decide) (by decide)
  rw [tree_read, hread]
  simp [tree_parse_single_then_garbage mode name sha garbage hm0 hm32 hn0 hsha hg]

/-- C5 witness: the amended statement applied to a concrete payload whose
tail `100644 x` lacks its NUL terminator (and whose digest bytes include
NULs, which is legal). -/
theorem C5_tree_read_truncates_silently_witness :
    tree_read (fun x => x)
        (hash_object (fun x => x) (fun x => x) ⟨[], []⟩
          (ascii "100644" ++ 32 :: (ascii "b.txt" ++ 0 ::
            (List.replicate 20 0 ++ ascii "100644 x"))) (ascii "tree")).2
        (hash_object (fun x => x) (fun x => x) ⟨[], []⟩
          (ascii "100644" ++ 32 :: (ascii "b.txt" ++ 0 ::
            (List.replicate 20 0 ++ ascii "100644 x"))) (ascii "tree")).1
      = .ok [(ascii "100644", ascii "b.txt", bytesToHex (List.replicate 20 0))] :=
  C5_tree_read_truncates_silently (fun x => x) (fun x => x) (fun x => x)
    (fun _ => rfl) ⟨[], []⟩ (ascii "100644") (ascii "b.txt")
    (List.replicate 20 0) (ascii "100644 x")
    (by decide) (by decide) (by decide) (by decide) (by decide) (by decide)

/-! ### C2: tree building on a nested index -/

/-- C2: evaluating `Index.write_tree` at the failing input — an index holding
exactly `d/x.txt` and `d/sub/y.txt`.  The root call computes its
subdirectories as the keys starting with `"" + "/"`, i.e. with `/`, which
matches nothing, so the nested directory `d` is silently dropped: the only
object ever written is the *empty* root tree (`tree 0`), and no tree
containing `x.txt`, `sub` or `y.txt` exists — contradicting the claimed
bottom-up recursion. -/
theorem C2_write_tree_drops_nested_directories :
    write_tree (fun x => x) (fun x => x)
        [(ascii "d/x.txt",
          ⟨ascii "1111111111111111111111111111111111111111", ascii "100644"⟩),
         (ascii "d/sub/y.txt",
          ⟨ascii "2222222222222222222222222222222222222222", ascii "100644"⟩)]
        ⟨[], []⟩
      = .ok (encodeHeader (ascii "tree") 0,
          ⟨[(encodeHeader (ascii "tree") 0, encodeHeader (ascii "tree") 0)],
           [encodeHeader (ascii "tree") 0]⟩) := by
  decide

/-! ### Lemmas about pyStrip and prefix tests, for the HEAD state machine -/

theorem dropWhile_append_of_eq_self (p : Nat → Bool) (l m : Bytes)
    (hl : l.dropWhile p = l) (hne : l ≠ []) :
    (l ++ m).dropWhile p = l ++ m := by
  cases l with
  | nil => exact absurd rfl hne
  | cons a l' =>
    have hpa : p a = false := by
      by_cases hp : p a = true
      · have hlen : (List.dropWhile p (a :: l')).length = (a :: l').length := by rw [hl]
        rw [List.dropWhile_cons_of_pos hp] at hlen
        have := (List.dropWhile_sublist (l := l') p).length_le
        simp at hlen
        omega
      · simpa using hp
    rw [List.cons_append, List.dropWhile_cons_of_neg (by simp [hpa])]

theorem dropWhile_eq_self_of_forall (p : Nat → Bool) (l : Bytes)
    (h : ∀ b ∈ l, p b = false) : l.dropWhile p = l := by
  cases l with
  | nil => rfl
  | cons a l' => rw [List.dropWhile_cons_of_neg (by simp [h a (by simp)])]

theorem pyStrip_eq_self_of_forall (l : Bytes) (h : ∀ b ∈ l, isPyWs b = false) :
    pyStrip l = l := by
  rw [pyStrip, dropWhile_eq_self_of_forall _ l h,
    dropWhile_eq_self_of_forall _ l.reverse (by intro b hb; exact h b (by simpa using hb)),
    List.reverse_reverse]

/-- `pyStrip` is the identity on `A ++ b` when the fixed part `A` is
nonempty with no leading or trailing whitespace, and `b` merely has no
trailing whitespace (leading whitespace in `b` sits in the middle of the
concatenation and survives a strip). -/
theorem pyStrip_append_eq (A b : Bytes) (hAne : A ≠ [])
    (hA1 : A.dropWhile isPyWs = A) (hA2 : A.reverse.dropWhile isPyWs = A.reverse)
    (hb : b.reverse.dropWhile isPyWs = b.reverse) :
    pyStrip (A ++ b) = A ++ b := by
  have hleft : (A ++ b).dropWhile isPyWs = A ++ b :=
    dropWhile_append_of_eq_self _ A b hA1 hAne
  rw [pyStrip, hleft, List.reverse_append]
  by_cases hbe : b = []
  · subst hbe
    simp [hA2]
  · rw [dropWhile_append_of_eq_self _ b.reverse A.reverse hb (by simp [hbe])]
    simp

theorem isPrefixOf_append_self (p m : Bytes) : p.isPrefixOf (p ++ m) = true := by
  induction p with
  | nil => simp [List.isPrefixOf]
  | cons a p' ih => simp [List.isPrefixOf, ih]

theorem drop_len_append (A B : Bytes) : (A ++ B).drop A.length = B := by
  induction A with
  | nil => simp
  | cons a as ih => simp [ih]

theorem isPrefixOf_cons_false (a c : Nat) (p q : Bytes) (h : a ≠ c) :
    (a :: p).isPrefixOf (c :: q) = false := by
  simp [List.isPrefixOf, h]

theorem hexVal?_isSome_bounds (c : Nat) (h : (hexVal? c).isSome = true) :
    (48 ≤ c ∧ c ≤ 57) ∨ (97 ≤ c ∧ c ≤ 102) ∨ (65 ≤ c ∧ c ≤ 70) := by
  by_cases h1 : 48 ≤ c ∧ c ≤ 57
  · exact Or.inl h1
  by_cases h2 : 97 ≤ c ∧ c ≤ 102
  · exact Or.inr (Or.inl h2)
  by_cases h3 : 65 ≤ c ∧ c ≤ 70
  · exact Or.inr (Or.inr h3)
  rw [hexVal?, if_neg h1, if_neg h2, if_neg h3] at h
  simp at h

/-! ### C8: update_HEAD / get_HEAD round trip -/

/-- C8 counterexample: three inputs for which the claimed round trip fails.
`b = "refs/heads/x"` (its ref file is `refs/heads/refs/heads/x`) comes back
as `x`, because `update_HEAD` writes `ref: refs/heads/x` and `get_HEAD`
strips the `refs/heads/` prefix; `b = "x\n"` comes back as `x`, because
`get_HEAD` strips trailing whitespace; and the 40-hex `h` is *not* reported
detached when a nested branch `<h>/z` exists, because `os.path.exists` sees
the directory `refs/heads/<h>` and `update_HEAD` goes symbolic. -/
theorem C8_counterexample_update_get_HEAD :
    get_HEAD (update_HEAD
        { repositoryInit with
          refFiles := [(ascii "refs/heads/refs/heads/x",
            ascii "1111111111111111111111111111111111111111\n")] }
        (ascii "refs/heads/x"))
      ≠ (false, some (ascii "refs/heads/x")) ∧
    get_HEAD (update_HEAD
        { repositoryInit with
          refFiles := [(ascii "refs/heads/x\n",
            ascii "1111111111111111111111111111111111111111\n")] }
        (ascii "x\n"))
      ≠ (false, some (ascii "x\n")) ∧
    get_HEAD (update_HEAD
        { repositoryInit with
          refFiles :=
            [(ascii "refs/heads/0123456789abcdef0123456789abcdef01234567/z",
              ascii "1111111111111111111111111111111111111111\n")] }
        (ascii "0123456789abcdef0123456789abcdef01234567"))
      ≠ (true, some (ascii "0123456789abcdef0123456789abcdef01234567")) := by
  refine ⟨by decide, by decide, by decide⟩

/-- C8 (amended): the round trip holds for every existing branch name that
does not itself start with `refs/heads/` and has no trailing whitespace; and
for every 40-hex-character string `h` such that `refs/heads/<h>` exists
neither as a ref file nor as a directory (no branch `h` and no nested branch
`h/...`), `update_HEAD` then `get_HEAD` reports the detached state
`(True, h)`. -/
theorem C8_update_get_HEAD_amended :
    (∀ (repo : Repo) (b : Bytes),
      (lookupAssoc repo.refFiles (ascii "refs/heads/" ++ b)).isSome = true →
      (ascii "refs/heads/").isPrefixOf b = false →
      b.reverse.dropWhile isPyWs = b.reverse →
      get_HEAD (update_HEAD repo b) = (false, some b)) ∧
    (∀ (repo : Repo) (h : Bytes),
      h.length = 40 → (∀ c ∈ h, (hexVal? c).isSome = true) →
      refPathExists repo.refFiles (ascii "refs/heads/" ++ h) = false →
      get_HEAD (update_HEAD repo h) = (true, some h)) := by
  constructor
  · intro repo b hexists hnotpref hstrip
    have hcontent : update_HEAD repo b
        = { repo with headFile := some (ascii "ref: " ++ (ascii "refs/heads/" ++ b)) } := by
      rw [update_HEAD]
      simp [refPathExists, hexists, hnotpref]
    have hsplitA : ascii "ref: " ++ (ascii "refs/heads/" ++ b)
        = ascii "ref: refs/heads/" ++ b := by
      have : ascii "ref: refs/heads/" = ascii "ref: " ++ ascii "refs/heads/" := by decide
      rw [this, List.append_assoc]
    have hstripped : pyStrip (ascii "ref: refs/heads/" ++ b)
        = ascii "ref: refs/heads/" ++ b :=
      pyStrip_append_eq (ascii "ref: refs/heads/") b (by decide) (by decide) (by decide)
        hstrip
    have hpref : (ascii "ref: ").isPrefixOf (ascii "ref: refs/heads/" ++ b) = true := by
      have h1 : ascii "ref: refs/heads/" ++ b = ascii "ref: " ++ (ascii "refs/heads/" ++ b) :=
        hsplitA.symm
      rw [h1]
      exact isPrefixOf_append_self _ _
    have hdrop5 : (ascii "ref: refs/heads/" ++ b).drop 5 = ascii "refs/heads/" ++ b := by
      rw [← hsplitA, show (5 : Nat) = (ascii "ref: ").length from by decide,
        drop_len_append]
    have hpref2 : (ascii "refs/heads/").isPrefixOf (ascii "refs/heads/" ++ b) = true :=
      isPrefixOf_append_self _ _
    have hdrop11 : (ascii "refs/heads/" ++ b).drop 11 = b := by
      rw [show (11 : Nat) = (ascii "refs/heads/").length from by decide, drop_len_append]
    rw [hcontent, get_HEAD]
    simp only [hsplitA, hstripped, hpref, if_pos rfl, hdrop5, hpref2, hdrop11]
    simp
  · intro repo h hlen hhex hmiss
    obtain ⟨c, rest, hc⟩ : ∃ c rest, h = c :: rest := by
      cases h with
      | nil => simp at hlen
      | cons c rest => exact ⟨c, rest, rfl⟩
    have hchex : (hexVal? c).isSome = true := hhex c (by simp [hc])
    have hcne : (114 : Nat) ≠ c := by
      intro he
      rw [← he] at hchex
      exact absurd hchex (by decide)
    have hnotpref : (ascii "refs/heads/").isPrefixOf h = false := by
      rw [hc, show ascii "refs/heads/" = 114 :: ascii "efs/heads/" from by decide]
      exact isPrefixOf_cons_false 114 c _ rest hcne
    have hcontent : update_HEAD repo h = { repo with headFile := some h } := by
      rw [update_HEAD]
      simp [hmiss, hnotpref]
    have hnonws : ∀ b ∈ h, isPyWs b = false := by
      intro b hb
      have hbb := hexVal?_isSome_bounds b (hhex b hb)
      simp [isPyWs]
      omega
    have hstrip : pyStrip h = h := pyStrip_eq_self_of_forall h hnonws
    have hnotref : (ascii "ref: ").isPrefixOf h = false := by
      rw [hc, show ascii "ref: " = 114 :: ascii "ef: " from by decide]
      exact isPrefixOf_cons_false 114 c _ rest hcne
    rw [hcontent, get_HEAD]
    simp only [hstrip, hnotref]
    simp

/-- C8 witness: both amended parts at concrete states — the existing branch
`feature`, and a fresh 40-hex hash on a repository with no matching branch. -/
theorem C8_update_get_HEAD_amended_witness :
    get_HEAD (update_HEAD
        { repositoryInit with
          refFiles := [(ascii "refs/heads/feature",
            ascii "2222222222222222222222222222222222222222\n")] }
        (ascii "feature"))
      = (false, some (ascii "feature")) ∧
    get_HEAD (update_HEAD repositoryInit
        (ascii "0123456789abcdef0123456789abcdef01234567"))
      = (true, some (ascii "0123456789abcdef0123456789abcdef01234567")) := by
  constructor
  · exact C8_update_get_HEAD_amended.1
      { repositoryInit with
        refFiles := [(ascii "refs/heads/feature",
          ascii "2222222222222222222222222222222222222222\n")] }
      (ascii "feature") (by decide) (by decide) (by decide)
  · exact C8_update_get_HEAD_amended.2 repositoryInit
      (ascii "0123456789abcdef0123456789abcdef01234567")
      (by decide) (by decide) (by decide)

/-! ### C10: commit on an empty index -/

theorem lookupAssoc_setAssoc_ne {β : Type} (l : List (Bytes × β)) (k k' : Bytes) (v : β)
    (h : k ≠ k') : lookupAssoc (setAssoc l k v) k' = lookupAssoc l k' := by
  induction l with
  | nil => simp [setAssoc, lookupAssoc, h]
  | cons kv rest ih =>
    obtain ⟨k'', v''⟩ := kv
    by_cases hk : k'' = k
    · subst hk
      simp [setAssoc, lookupAssoc, h, ih]
    · simp [setAssoc, lookupAssoc, hk, ih]

/-- Once `write_tree` has produced a non-falsy tree hash, `Repository.commit`
always reaches commit creation: it returns the new commit's hash and a state
whose object store is the one left by `Commit.create`. -/
theorem repositoryCommit_ok (sha1 compress : Bytes → Bytes) (repo : Repo)
    (message : Bytes) (timestamp : Nat) (hmsg : message ≠ [])
    (treeSha : Bytes) (fs1 : ObjectStore)
    (hwt : write_tree sha1 compress repo.indexEntries repo.objects = .ok (treeSha, fs1))
    (htne : treeSha ≠ []) :
    ∃ repo' : Repo,
      repositoryCommit sha1 compress repo message timestamp
        = .ok (some (commit_create sha1 compress fs1 treeSha message
            (resolve_HEAD { repo with objects := fs1 }) timestamp).1, repo') ∧
      repo'.objects = (commit_create sha1 compress fs1 treeSha message
            (resolve_HEAD { repo with objects := fs1 }) timestamp).2 := by
  rcases hcc : commit_create sha1 compress fs1 treeSha message
      (resolve_HEAD { repo with objects := fs1 }) timestamp with ⟨commitSha, fs2⟩
  simp only [repositoryCommit, if_neg hmsg, hwt, if_neg htne, hcc]
  rcases hH : get_HEAD { repo with objects := fs2 } with ⟨det, tgt⟩
  cases det
  · exact ⟨_, rfl, rfl⟩
  · exact ⟨_, rfl, rfl⟩

theorem commitContent_tree_line (t m : Bytes) (p : Option Bytes) (ts : Nat) :
    ∃ tail, commitContent t m p ts = ascii "tree " ++ (t ++ 10 :: tail) := by
  refine ⟨parentLine p
    ++ ascii "author " ++ ascii "SimpleGit User <user@example.com>" ++ [32]
    ++ decimalAscii ts ++ [32] ++ ascii "-0500" ++ [10]
    ++ ascii "committer " ++ ascii "SimpleGit User <user@example.com>" ++ [32]
    ++ decimalAscii ts ++ [32] ++ ascii "-0500" ++ [10]
    ++ [10] ++ m ++ [10], ?_⟩
  simp only [commitContent]
  simp [List.append_assoc]

/-- The hash returned by `Commit.create` and the file map it leaves behind,
written out as the canonical header-plus-body bytes. -/
theorem commit_create_components (sha1 compress : Bytes → Bytes) (fs : ObjectStore)
    (treeSha message : Bytes) (parent : Option Bytes) (ts : Nat) :
    (commit_create sha1 compress fs treeSha message parent ts).1
      = sha1 (encodeHeader (ascii "commit")
          (commitContent treeSha message parent ts).length
          ++ commitContent treeSha message parent ts) ∧
    (commit_create sha1 compress fs treeSha message parent ts).2.files
      = setAssoc fs.files
          (sha1 (encodeHeader (ascii "commit")
            (commitContent treeSha message parent ts).length
            ++ commitContent treeSha message parent ts))
          (compress (encodeHeader (ascii "commit")
            (commitContent treeSha message parent ts).length
            ++ commitContent treeSha message parent ts)) :=
  ⟨rfl, rfl⟩

/-- A stored commit buffer never coincides with the stored empty-tree buffer
(their type tags differ in the first byte). -/
theorem commit_stored_ne_tree_stored (t m : Bytes) (p : Option Bytes) (ts n : Nat) :
    encodeHeader (ascii "commit") n ++ commitContent t m p ts
      ≠ encodeHeader (ascii "tree") 0 := by
  intro he
  have h1 : (encodeHeader (ascii "commit") n ++ commitContent t m p ts).head?
      = some 99 := rfl
  rw [he, show (encodeHeader (ascii "tree") 0).head? = some 116 from rfl] at h1
  exact absurd h1 (by decide)

/-- C10: on an empty index, `Index.write_tree` returns the hash of the empty
tree object (`tree` with zero-length payload) — a 40-character value, never a
null or empty one — so `Repository.commit` with a nonempty message never
takes its "Nothing to commit (empty index)" branch: it creates and returns a
commit object whose `tree` header line carries the empty tree's hash, with
the empty tree object itself present in the final store. -/
theorem C10_empty_index_commits_empty_tree (sha1 compress : Bytes → Bytes)
    (hinj : Function.Injective sha1) (h40 : ∀ x, (sha1 x).length = 40)
    (repo : Repo) (message : Bytes) (timestamp : Nat)
    (hidx : repo.indexEntries = []) (hmsg : message ≠ []) :
    (∃ fs', write_tree sha1 compress repo.indexEntries repo.objects
        = .ok (sha1 (encodeHeader (ascii "tree") 0), fs')) ∧
    (sha1 (encodeHeader (ascii "tree") 0)).length = 40 ∧
    (∃ (payload : Bytes) (repo' : Repo) (tail : Bytes),
      repositoryCommit sha1 compress repo message timestamp
        = .ok (some (sha1 (encodeHeader (ascii "commit") payload.length ++ payload)),
            repo') ∧
      payload = ascii "tree " ++ (sha1 (encodeHeader (ascii "tree") 0) ++ 10 :: tail) ∧
      lookupAssoc repo'.objects.files (sha1 (encodeHeader (ascii "tree") 0))
        = some (compress (encodeHeader (ascii "tree") 0))) := by
  have hETSne : sha1 (encodeHeader (ascii "tree") 0) ≠ [] := by
    intro he
    have h0 := h40 (encodeHeader (ascii "tree") 0)
    rw [he] at h0
    simp at h0
  have hwt : write_tree sha1 compress repo.indexEntries repo.objects
      = .ok (sha1 (encodeHeader (ascii "tree") 0),
          ⟨setAssoc repo.objects.files (sha1 (encodeHeader (ascii "tree") 0))
             (compress (encodeHeader (ascii "tree") 0)),
           sha1 (encodeHeader (ascii "tree") 0) :: repo.objects.writeLog⟩) := by
    rw [hidx]
    rfl
  obtain ⟨repo', hcommit, hobj⟩ :=
    repositoryCommit_ok sha1 compress repo message timestamp hmsg _ _ hwt hETSne
  rw [(commit_create_components sha1 compress _ _ _ _ _).1] at hcommit
  refine ⟨⟨_, hwt⟩, h40 _, ?_⟩
  obtain ⟨tail, htail⟩ := commitContent_tree_line (sha1 (encodeHeader (ascii "tree") 0))
    message (resolve_HEAD { repo with objects :=
      ⟨setAssoc repo.objects.files (sha1 (encodeHeader (ascii "tree") 0))
         (compress (encodeHeader (ascii "tree") 0)),
       sha1 (encodeHeader (ascii "tree") 0) :: repo.objects.writeLog⟩ }) timestamp
  refine ⟨_, repo', tail, hcommit, htail, ?_⟩
  rw [hobj, (commit_create_components sha1 compress _ _ _ _ _).2,
    lookupAssoc_setAssoc_ne _ _ _ _ (hinj.ne (commit_stored_ne_tree_stored _ _ _ _ _))]
  exact lookupAssoc_setAssoc_self _ _ _

theorem natPairList_injective : Function.Injective natPairList := by
  intro l1 l2 h
  induction l1 generalizing l2 with
  | nil =>
    cases l2 with
    | nil => rfl
    | cons b bs => simp [natPairList] at h
  | cons a as ih =>
    cases l2 with
    | nil => simp [natPairList] at h
    | cons b bs =>
      simp only [natPairList, Nat.add_right_cancel_iff] at h
      have hp := Nat.pair_eq_pair.mp h
      rw [hp.1, ih hp.2]

theorem sha1w_injective : Function.Injective sha1w := by
  intro a b h
  simp only [sha1w, List.cons.injEq] at h
  exact natPairList_injective h.1

theorem sha1w_length (x : Bytes) : (sha1w x).length = 40 := by
  simp [sha1w]

/-- C10 witness: the theorem applied to the freshly initialized repository,
the message `first`, timestamp `0`, the identity codec and the injective
constant-length-40 hash `sha1w`. -/
theorem C10_empty_index_commits_empty_tree_witness :
    (∃ fs', write_tree sha1w (fun x => x) repositoryInit.indexEntries
        repositoryInit.objects
        = .ok (sha1w (encodeHeader (ascii "tree") 0), fs')) ∧
    (sha1w (encodeHeader (ascii "tree") 0)).length = 40 ∧
    (∃ (payload : Bytes) (repo' : Repo) (tail : Bytes),
      repositoryCommit sha1w (fun x => x) repositoryInit (ascii "first") 0
        = .ok (some (sha1w (encodeHeader (ascii "commit") payload.length ++ payload)),
            repo') ∧
      payload = ascii "tree " ++ (sha1w (encodeHeader (ascii "tree") 0) ++ 10 :: tail) ∧
      lookupAssoc repo'.objects.files (sha1w (encodeHeader (ascii "tree") 0))
        = some (encodeHeader (ascii "tree") 0)) :=
  C10_empty_index_commits_empty_tree sha1w (fun x => x) sha1w_injective sha1w_length
    repositoryInit (ascii "first") 0 rfl (by decide)

/-! ### Lemmas about the stable sort and the name order -/

theorem stableInsert_perm {α : Type} (le : α → α → Bool) (a : α) (l : List α) :
    (stableInsert le a l).Perm (a :: l) := by
  induction l with
  | nil => simp [stableInsert]
  | cons b rest ih =>
    by_cases h : le b a = true
    · rw [stableInsert, if_pos h]
      exact (ih.cons b).trans (List.Perm.swap a b rest)
    · rw [stableInsert, if_neg h]

theorem pySorted_perm {α : Type} (le : α → α → Bool) (l : List α) :
    (pySorted le l).Perm l := by
  suffices h : ∀ acc : List α,
      (l.foldl (fun acc a => stableInsert le a acc) acc).Perm (acc ++ l) by
    simpa [pySorted] using h []
  induction l with
  | nil => intro acc; simp
  | cons a rest ih =>
    intro acc
    have h1 := ih (stableInsert le a acc)
    have h2 : (stableInsert le a acc ++ rest).Perm (acc ++ a :: rest) := by
      have h3 : (stableInsert le a acc).Perm (a :: acc) := stableInsert_perm le a acc
      exact (h3.append_right rest).trans (List.perm_middle.symm)
    simpa using h1.trans h2

theorem mem_stableInsert {α : Type} (le : α → α → Bool) (a x : α) (l : List α) :
    x ∈ stableInsert le a l ↔ x = a ∨ x ∈ l := by
  have := (stableInsert_perm le a l).mem_iff (a := x)
  simpa using this

theorem stableInsert_pairwise {α : Type} (le : α → α → Bool)
    (htrans : ∀ a b c, le a b = true → le b c = true → le a c = true)
    (htotal : ∀ a b, le a b = true ∨ le b a = true)
    (a : α) (l : List α) (hl : l.Pairwise (fun x y => le x y = true)) :
    (stableInsert le a l).Pairwise (fun x y => le x y = true) := by
  induction l with
  | nil => simp [stableInsert]
  | cons b rest ih =>
    rcases hl with _ | ⟨hb, hrest⟩
    by_cases h : le b a = true
    · rw [stableInsert, if_pos h]
      refine List.Pairwise.cons ?_ (ih hrest)
      intro y hy
      rcases (mem_stableInsert le a y rest).mp hy with rfl | hy'
      · exact h
      · exact hb y hy'
    · rw [stableInsert, if_neg h]
      have hab : le a b = true := by
        rcases htotal a b with h1 | h1
        · exact h1
        · exact absurd h1 h
      refine List.Pairwise.cons ?_ (List.Pairwise.cons hb hrest)
      intro y hy
      rcases List.mem_cons.mp hy with rfl | hy'
      · exact hab
      · exact htrans a b y hab (hb y hy')

theorem pySorted_pairwise {α : Type} (le : α → α → Bool)
    (htrans : ∀ a b c, le a b = true → le b c = true → le a c = true)
    (htotal : ∀ a b, le a b = true ∨ le b a = true) (l : List α) :
    (pySorted le l).Pairwise (fun x y => le x y = true) := by
  suffices h : ∀ acc : List α, acc.Pairwise (fun x y => le x y = true) →
      (l.foldl (fun acc a => stableInsert le a acc) acc).Pairwise
        (fun x y => le x y = true) by
    exact h [] (by simp)
  induction l with
  | nil => intro acc hacc; simpa using hacc
  | cons a rest ih =>
    intro acc hacc
    exact ih (stableInsert le a acc) (stableInsert_pairwise le htrans htotal a acc hacc)

theorem lexLe_total (x y : Bytes) : lexLe x y = true ∨ lexLe y x = true := by
  induction x generalizing y with
  | nil => left; rfl
  | cons a as ih =>
    cases y with
    | nil => right; rfl
    | cons b bs =>
      rcases Nat.lt_trichotomy a b with h | h | h
      · left
        simp [lexLe, h]
      · subst h
        rcases ih bs with h1 | h1
        · left
          simp [lexLe, h1]
        · right
          simp [lexLe, h1]
      · right
        simp [lexLe, h]

theorem lexLe_cons_iff (a b : Nat) (as bs : Bytes) :
    lexLe (a :: as) (b :: bs) = true ↔ a < b ∨ (a = b ∧ lexLe as bs = true) := by
  simp only [lexLe]
  by_cases h1 : a < b
  · simp [h1]
  · by_cases h2 : a = b
    · simp [h1, h2]
    · simp [h1, h2]

theorem lexLe_trans (x y z : Bytes) (h1 : lexLe x y = true) (h2 : lexLe y z = true) :
    lexLe x z = true := by
  induction x generalizing y z with
  | nil => rfl
  | cons a as ih =>
    cases y with
    | nil => simp [lexLe] at h1
    | cons b bs =>
      cases z with
      | nil => simp [lexLe] at h2
      | cons c cs =>
        rw [lexLe_cons_iff] at h1 h2 ⊢
        rcases h1 with h1 | ⟨h1e, h1r⟩
        · rcases h2 with h2 | ⟨h2e, _⟩
          · exact Or.inl (by omega)
          · exact Or.inl (by omega)
        · rcases h2 with h2 | ⟨h2e, h2r⟩
          · exact Or.inl (by omega)
          · exact Or.inr ⟨by omega, ih bs cs h1r h2r⟩

theorem lexLe_antisymm (x y : Bytes) (h1 : lexLe x y = true) (h2 : lexLe y x = true) :
    x = y := by
  induction x generalizing y with
  | nil =>
    cases y with
    | nil => rfl
    | cons b bs => simp [lexLe] at h2
  | cons a as ih =>
    cases y with
    | nil => simp [lexLe] at h1
    | cons b bs =>
      rw [lexLe_cons_iff] at h1 h2
      rcases h1 with h1 | ⟨h1e, h1r⟩
      · rcases h2 with h2 | ⟨h2e, _⟩
        · omega
        · omega
      · rcases h2 with h2 | ⟨h2e, h2r⟩
        · omega
        · rw [h1e, ih bs h1r h2r]

theorem entryNameLe_trans (a b c : TreeEntry) (h1 : entryNameLe a b = true)
    (h2 : entryNameLe b c = true) : entryNameLe a c = true :=
  lexLe_trans a.2.1 b.2.1 c.2.1 h1 h2

theorem entryNameLe_total (a b : TreeEntry) :
    entryNameLe a b = true ∨ entryNameLe b a = true :=
  lexLe_total a.2.1 b.2.1

/-- Two permuted entry lists with no duplicate names sort identically. -/
theorem pySorted_eq_of_perm (l₁ l₂ : List TreeEntry) (hperm : l₁.Perm l₂)
    (hnodup : (l₁.map (fun e => e.2.1)).Nodup) :
    pySorted entryNameLe l₁ = pySorted entryNameLe l₂ := by
  have hp : (pySorted entryNameLe l₁).Perm (pySorted entryNameLe l₂) :=
    ((pySorted_perm entryNameLe l₁).trans hperm).trans (pySorted_perm entryNameLe l₂).symm
  refine @List.Perm.eq_of_sorted TreeEntry (fun x y => entryNameLe x y = true)
    (pySorted entryNameLe l₁) (pySorted entryNameLe l₂) ?_ ?_ ?_ hp
  · intro a b ha hb hab hba
    have ha' : a ∈ l₁ := ((pySorted_perm entryNameLe l₁).mem_iff).mp ha
    have hb' : b ∈ l₁ := by
      have hm := ((pySorted_perm entryNameLe l₂).mem_iff).mp hb
      exact (hperm.mem_iff).mpr hm
    have hname : a.2.1 = b.2.1 := lexLe_antisymm _ _ hab hba
    exact List.inj_on_of_nodup_map hnodup ha' hb' hname
  · exact pySorted_pairwise entryNameLe entryNameLe_trans entryNameLe_total l₁
  · exact pySorted_pairwise entryNameLe entryNameLe_trans entryNameLe_total l₂

/-! ### Hex round trip and tree-content round trip -/

theorem hexVal?_lower (c : Nat) (h : isLowerHex c = true) :
    ∃ v, hexVal? c = some v ∧ v < 16 ∧ hexDigit v = c := by
  simp [isLowerHex] at h
  rcases h with ⟨h1, h2⟩ | ⟨h1, h2⟩
  · refine ⟨c - 48, ?_, by omega, ?_⟩
    · rw [hexVal?, if_pos (by omega)]
    · rw [hexDigit, if_pos (by omega)]
      omega
  · refine ⟨c - 87, ?_, by omega, ?_⟩
    · rw [hexVal?, if_neg (by omega), if_pos (by omega)]
    · rw [hexDigit, if_neg (by omega)]
      omega

theorem byteHex_pack (v1 v2 : Nat) (h1 : v1 < 16) (h2 : v2 < 16) :
    byteHex (16 * v1 + v2) = [hexDigit v1, hexDigit v2] := by
  rw [byteHex]
  have e1 : (16 * v1 + v2) / 16 % 16 = v1 := by omega
  have e2 : (16 * v1 + v2) % 16 = v2 := by omega
  rw [e1, e2]

theorem fromHex?_lower (s : Bytes) (hhex : ∀ c ∈ s, isLowerHex c = true)
    (heven : s.length % 2 = 0) :
    ∃ raw, fromHex? s = some raw ∧ raw.length = s.length / 2 ∧ bytesToHex raw = s :=
  match s with
  | [] => ⟨[], rfl, rfl, rfl⟩
  | [_] => by simp at heven
  | c1 :: c2 :: rest => by
    obtain ⟨v1, hv1, hb1, hd1⟩ := hexVal?_lower c1 (hhex c1 (by simp))
    obtain ⟨v2, hv2, hb2, hd2⟩ := hexVal?_lower c2 (hhex c2 (by simp))
    obtain ⟨raw, hr, hlen, hhexr⟩ := fromHex?_lower rest
      (fun c hc => hhex c (by simp [hc])) (by
        simp only [List.length_cons] at heven ⊢
        omega)
    refine ⟨(16 * v1 + v2) :: raw, ?_, ?_, ?_⟩
    · rw [fromHex?, hv1, hv2, hr]
    · simp only [List.length_cons, hlen]
      omega
    · show byteHex (16 * v1 + v2) ++ bytesToHex raw = c1 :: c2 :: rest
      rw [byteHex_pack v1 v2 hb1 hb2, hd1, hd2, hhexr]
      rfl

/-- `treeParseF` ignores its fuel as long as the fuel covers the buffer. -/
theorem treeParseF_nil_any (fuel : Nat) : treeParseF fuel [] = [] := by
  cases fuel with
  | zero => rfl
  | succ f => simp [treeParseF]

theorem treeParseF_fuel (f1 : Nat) : ∀ (f2 : Nat) (c : Bytes),
    c.length ≤ f1 → c.length ≤ f2 → treeParseF f1 c = treeParseF f2 c := by
  induction f1 with
  | zero =>
    intro f2 c h1 _
    have hc : c = [] := by
      cases c with
      | nil => rfl
      | cons x xs => simp at h1
    subst hc
    rw [treeParseF_nil_any, treeParseF_nil_any]
  | succ k ih =>
    intro f2 c h1 h2
    cases c with
    | nil => rw [treeParseF_nil_any, treeParseF_nil_any]
    | cons x xs =>
      obtain ⟨m, rfl⟩ : ∃ m, f2 = m + 1 := by
        cases f2 with
        | zero => simp at h2
        | succ m => exact ⟨m, rfl⟩
      rw [treeParseF, treeParseF]
      cases hfind : pyFind 0 (x :: xs) with
      | none => simp [hfind]
      | some p =>
        simp only [hfind, if_neg (by simp : ¬ (x :: xs) = [])]
        have hd : (((x :: xs).drop (p + 1)).drop 20).length ≤ k := by
          simp only [List.length_drop, List.length_cons]
          simp only [List.length_cons] at h1
          omega
        have hd2 : (((x :: xs).drop (p + 1)).drop 20).length ≤ m := by
          simp only [List.length_drop, List.length_cons]
          simp only [List.length_cons] at h2
          omega
        rw [ih m (((x :: xs).drop (p + 1)).drop 20) hd hd2]

theorem tree_parse_cons (mode name sha rest : Bytes)
    (hm0 : ∀ b ∈ mode, b ≠ 0) (hm32 : ∀ b ∈ mode, b ≠ 32)
    (hn0 : ∀ b ∈ name, b ≠ 0) (hsha : sha.length = 20) :
    tree_parse (mode ++ 32 :: (name ++ 0 :: (sha ++ rest)))
      = (mode, name, bytesToHex sha) :: tree_parse rest := by
  have hpos : 1 ≤ (mode ++ 32 :: (name ++ 0 :: (sha ++ rest))).length := by
    simp
    omega
  rw [tree_parse, ← Nat.sub_add_cancel hpos,
    treeParseF_cons _ mode name sha rest hm0 hm32 hn0 hsha, tree_parse]
  have hle : rest.length ≤ (mode ++ 32 :: (name ++ 0 :: (sha ++ rest))).length - 1 := by
    simp
    omega
  rw [treeParseF_fuel _ _ rest hle (Nat.le_refl _)]

/-- For well-formed entries, `Tree.create`'s encoding succeeds and
`Tree.read`'s parser inverts it exactly. -/
theorem treeContent_parse (l : List TreeEntry) (hwf : ∀ e ∈ l, entryWf e) :
    ∃ c, treeContent l = some c ∧ tree_parse c = l :=
  match l with
  | [] => ⟨[], rfl, rfl⟩
  | (m, n, s) :: rest => by
    obtain ⟨hm0, hm32, hn0, hhex, hlen⟩ := hwf (m, n, s) (by simp)
    obtain ⟨raw, hr, hrawlen, hhexr⟩ := fromHex?_lower s hhex (by rw [hlen])
    obtain ⟨c', hc', hp'⟩ := treeContent_parse rest (fun e he => hwf e (by simp [he]))
    have hraw20 : raw.length = 20 := by
      rw [hrawlen, hlen]
    refine ⟨m ++ [32] ++ n ++ [0] ++ raw ++ c', ?_, ?_⟩
    · rw [treeContent, hr, hc']
    · have hshape : m ++ [32] ++ n ++ [0] ++ raw ++ c'
          = m ++ 32 :: (n ++ 0 :: (raw ++ c')) := by
        simp
      rw [hshape, tree_parse_cons m n raw c' hm0 hm32 hn0 hraw20, hp', hhexr]

/-! ### Header and content injectivity of the stored buffer -/

theorem stored_content_inj (t c₁ c₂ : Bytes) (n₁ n₂ : Nat)
    (ht0 : ∀ b ∈ t, b ≠ 0)
    (he : encodeHeader t n₁ ++ c₁ = encodeHeader t n₂ ++ c₂) : c₁ = c₂ := by
  have hpre : ∀ (n : Nat), ∀ x ∈ t ++ 32 :: decimalAscii n, x ≠ 0 := by
    intro n x hx
    simp at hx
    rcases hx with hx | hx | hx
    · exact ht0 x hx
    · omega
    · exact decimalAscii_ne_zero _ x hx
  have h1 : pyFind 0 (encodeHeader t n₁ ++ c₁)
      = some (t ++ 32 :: decimalAscii n₁).length := by
    rw [encodeHeader_append]
    exact pyFind_append_first 0 _ _ (hpre n₁)
  have h2 : pyFind 0 (encodeHeader t n₂ ++ c₂)
      = some (t ++ 32 :: decimalAscii n₂).length := by
    rw [encodeHeader_append]
    exact pyFind_append_first 0 _ _ (hpre n₂)
  rw [he, h2] at h1
  have hlen : (t ++ 32 :: decimalAscii n₂).length = (t ++ 32 :: decimalAscii n₁).length := by
    simpa using h1
  have hc1 : c₁ = (encodeHeader t n₁ ++ c₁).drop ((t ++ 32 :: decimalAscii n₁).length + 1) := by
    rw [encodeHeader_append, drop_len_cons_append]
  have hc2 : c₂ = (encodeHeader t n₂ ++ c₂).drop ((t ++ 32 :: decimalAscii n₂).length + 1) := by
    rw [encodeHeader_append, drop_len_cons_append]
  rw [hc1, hc2, he, hlen]

theorem countEntry_append (x : TreeEntry) (l₁ l₂ : List TreeEntry) :
    countEntry x (l₁ ++ l₂) = countEntry x l₁ + countEntry x l₂ := by
  induction l₁ with
  | nil => simp [countEntry]
  | cons e rest ih =>
    rw [List.cons_append, countEntry, countEntry, ih]
    omega

theorem countEntry_perm (x : TreeEntry) {l₁ l₂ : List TreeEntry} (h : l₁.Perm l₂) :
    countEntry x l₁ = countEntry x l₂ := by
  induction h with
  | nil => rfl
  | cons a _ ih => simp [countEntry, ih]
  | swap a b l =>
    simp only [countEntry]
    omega
  | trans _ _ ih1 ih2 => rw [ih1, ih2]

/-- Replacing one entry of a list by a different entry changes its
multiset. -/
theorem not_perm_single_change (pre post : List TreeEntry) (e₁ e₂ : TreeEntry)
    (hne : e₁ ≠ e₂) : ¬ (pre ++ e₁ :: post).Perm (pre ++ e₂ :: post) := by
  intro h
  have hy : e₂ ≠ e₁ := fun he => hne he.symm
  have hc := countEntry_perm e₁ h
  rw [countEntry_append, countEntry_append, countEntry, countEntry,
    if_pos rfl, if_neg hy] at hc
  omega

/-- Sensitivity half of C6: changing one well-formed entry's mode, name or
hash changes the tree hash produced by `Tree.create`, for an injective
hash primitive. -/
theorem tree_create_sensitive (sha1 compress : Bytes → Bytes)
    (hinj : Function.Injective sha1)
    (pre post : List TreeEntry) (e₁ e₂ : TreeEntry) (fs₁ fs₂ : ObjectStore)
    (hwf : ∀ e ∈ pre ++ e₁ :: post, entryWf e) (hwf2 : entryWf e₂) (hne : e₁ ≠ e₂) :
    ∃ h₁ s₁ h₂ s₂,
      tree_create sha1 compress fs₁ (pre ++ e₁ :: post) = .ok (h₁, s₁) ∧
      tree_create sha1 compress fs₂ (pre ++ e₂ :: post) = .ok (h₂, s₂) ∧
      h₁ ≠ h₂ := by
  have hwfl₂ : ∀ e ∈ pre ++ e₂ :: post, entryWf e := by
    intro e he
    rcases List.mem_append.mp he with he | he
    · exact hwf e (List.mem_append.mpr (Or.inl he))
    · rcases List.mem_cons.mp he with rfl | he'
      · exact hwf2
      · exact hwf e (List.mem_append.mpr (Or.inr (List.mem_cons.mpr (Or.inr he'))))
  have hwfs₁ : ∀ e ∈ pySorted entryNameLe (pre ++ e₁ :: post), entryWf e := by
    intro e he
    exact hwf e ((pySorted_perm entryNameLe _).mem_iff.mp he)
  have hwfs₂ : ∀ e ∈ pySorted entryNameLe (pre ++ e₂ :: post), entryWf e := by
    intro e he
    exact hwfl₂ e ((pySorted_perm entryNameLe _).mem_iff.mp he)
  obtain ⟨c₁, hc₁, hp₁⟩ := treeContent_parse _ hwfs₁
  obtain ⟨c₂, hc₂, hp₂⟩ := treeContent_parse _ hwfs₂
  refine ⟨sha1 (encodeHeader (ascii "tree") c₁.length ++ c₁),
    (hash_object sha1 compress fs₁ c₁ (ascii "tree")).2,
    sha1 (encodeHeader (ascii "tree") c₂.length ++ c₂),
    (hash_object sha1 compress fs₂ c₂ (ascii "tree")).2, ?_, ?_, ?_⟩
  · simp only [tree_create, hc₁]
    rfl
  · simp only [tree_create, hc₂]
    rfl
  · intro he
    have hst := hinj he
    have hcc : c₁ = c₂ :=
      stored_content_inj (ascii "tree") c₁ c₂ _ _ (by decide) hst
    have hsort : pySorted entryNameLe (pre ++ e₁ :: post)
        = pySorted entryNameLe (pre ++ e₂ :: post) := by
      rw [← hp₁, ← hp₂, hcc]
    have h2 : (pySorted entryNameLe (pre ++ e₁ :: post)).Perm (pre ++ e₂ :: post) := by
      rw [hsort]
      exact pySorted_perm entryNameLe _
    exact not_perm_single_change pre post e₁ e₂ hne
      ((pySorted_perm entryNameLe _).symm.trans h2)

/-! ### Stability half of C6: write_tree under index permutation -/

theorem dirsGet_dirsInsert_self (dirs : Dirs) (d f : Bytes) (i : IndexEntry) :
    dirsGet (dirsInsert dirs d f i) d = setAssoc (dirsGet dirs d) f i := by
  rw [dirsGet, dirsInsert, lookupAssoc_setAssoc_self]
  rfl

theorem dirsGet_dirsInsert_ne (dirs : Dirs) (d' d f : Bytes) (i : IndexEntry)
    (h : d' ≠ d) : dirsGet (dirsInsert dirs d' f i) d = dirsGet dirs d := by
  rw [dirsGet, dirsInsert, lookupAssoc_setAssoc_ne _ _ _ _ h]
  rfl

theorem dirsGet_indexGroup_aux (d : Bytes) (l : List (Bytes × IndexEntry)) :
    ∀ acc : Dirs,
    dirsGet (l.foldl (fun dirs pe =>
        dirsInsert dirs (os_path_split pe.1).1 (os_path_split pe.1).2 pe.2) acc) d
      = (dirFilesOf d l).foldl (fun m fe => setAssoc m fe.1 fe.2) (dirsGet acc d) := by
  induction l with
  | nil => intro acc; simp [dirFilesOf]
  | cons pe rest ih =>
    intro acc
    rw [List.foldl_cons, ih]
    by_cases hd : (os_path_split pe.1).1 = d
    · rw [show dirFilesOf d (pe :: rest)
          = ((os_path_split pe.1).2, pe.2) :: dirFilesOf d rest from by
            simp [dirFilesOf, hd],
        List.foldl_cons, hd, dirsGet_dirsInsert_self]
    · rw [show dirFilesOf d (pe :: rest) = dirFilesOf d rest from by
          simp [dirFilesOf, hd],
        dirsGet_dirsInsert_ne _ _ _ _ _ hd]

theorem lookupAssoc_append_none {β : Type} (l₁ l₂ : List (Bytes × β)) (k : Bytes)
    (h1 : lookupAssoc l₁ k = none) (h2 : lookupAssoc l₂ k = none) :
    lookupAssoc (l₁ ++ l₂) k = none := by
  induction l₁ with
  | nil => simpa using h2
  | cons kv rest ih =>
    obtain ⟨k', v'⟩ := kv
    by_cases hk : k' = k
    · simp [lookupAssoc, hk] at h1
    · simp [lookupAssoc, hk] at h1 ⊢
      exact ih h1

theorem lookupAssoc_eq_none_of_not_mem {β : Type} (l : List (Bytes × β)) (k : Bytes)
    (h : k ∉ l.map Prod.fst) : lookupAssoc l k = none := by
  induction l with
  | nil => rfl
  | cons kv rest ih =>
    obtain ⟨k', v'⟩ := kv
    have h1 : k' ≠ k := by
      intro he
      exact h (by simp [he])
    have h2 : k ∉ rest.map Prod.fst := by
      intro hm
      exact h (by simp [hm])
    rw [lookupAssoc, if_neg h1, ih h2]

theorem foldl_setAssoc_fresh (fl : List (Bytes × IndexEntry)) :
    ∀ acc : List (Bytes × IndexEntry),
    (fl.map Prod.fst).Nodup → (∀ k ∈ fl.map Prod.fst, lookupAssoc acc k = none) →
    fl.foldl (fun m fe => setAssoc m fe.1 fe.2) acc = acc ++ fl := by
  induction fl with
  | nil => intro acc _ _; simp
  | cons fe rest ih =>
    intro acc hnodup hfresh
    simp only [List.map_cons, List.nodup_cons] at hnodup
    have hhead : lookupAssoc acc fe.1 = none := hfresh fe.1 (by simp)
    rw [List.foldl_cons, setAssoc_of_lookup_none acc fe.1 fe.2 hhead,
      ih (acc ++ [(fe.1, fe.2)]) hnodup.2 ?_]
    · simp
    · intro k hk
      have hne : fe.1 ≠ k := fun he => hnodup.1 (he ▸ hk)
      refine lookupAssoc_append_none acc [(fe.1, fe.2)] k (hfresh k (by simp [hk])) ?_
      simp [lookupAssoc, hne]

theorem mem_dirFilesOf_keys (d fn : Bytes) (l : List (Bytes × IndexEntry))
    (h : fn ∈ (dirFilesOf d l).map Prod.fst) :
    ∃ pe ∈ l, os_path_split pe.1 = (d, fn) := by
  induction l with
  | nil => simp [dirFilesOf] at h
  | cons pe rest ih =>
    by_cases hd : (os_path_split pe.1).1 = d
    · rw [show dirFilesOf d (pe :: rest)
          = ((os_path_split pe.1).2, pe.2) :: dirFilesOf d rest from by
            simp [dirFilesOf, hd], List.map_cons] at h
      rcases List.mem_cons.mp h with h | h
      · refine ⟨pe, by simp, ?_⟩
        have hfn : fn = (os_path_split pe.1).2 := h
        rw [hfn, ← hd]
      · obtain ⟨pe', hpe', hsp⟩ := ih h
        exact ⟨pe', by simp [hpe'], hsp⟩
    · rw [show dirFilesOf d (pe :: rest) = dirFilesOf d rest from by
          simp [dirFilesOf, hd]] at h
      obtain ⟨pe', hpe', hsp⟩ := ih h
      exact ⟨pe', by simp [hpe'], hsp⟩

theorem dirFilesOf_keys_nodup (d : Bytes) (l : List (Bytes × IndexEntry))
    (h : (l.map (fun pe => os_path_split pe.1)).Nodup) :
    ((dirFilesOf d l).map Prod.fst).Nodup := by
  induction l with
  | nil => simp [dirFilesOf]
  | cons pe rest ih =>
    simp only [List.map_cons, List.nodup_cons] at h
    by_cases hd : (os_path_split pe.1).1 = d
    · rw [show dirFilesOf d (pe :: rest)
          = ((os_path_split pe.1).2, pe.2) :: dirFilesOf d rest from by
            simp [dirFilesOf, hd]]
      refine List.nodup_cons.mpr ⟨?_, ih h.2⟩
      intro hmem
      obtain ⟨pe', hpe', hsp⟩ := mem_dirFilesOf_keys d _ rest hmem
      have : os_path_split pe.1 = os_path_split pe'.1 := by
        rw [hsp]
        rw [show ((d, (os_path_split pe.1).2) : Bytes × Bytes)
            = ((os_path_split pe.1).1, (os_path_split pe.1).2) from by rw [hd]]
      exact h.1 (this ▸ List.mem_map_of_mem (fun pe => os_path_split pe.1) hpe')
    · rw [show dirFilesOf d (pe :: rest) = dirFilesOf d rest from by
          simp [dirFilesOf, hd]]
      exact ih h.2

theorem keys_setAssoc_mem {β : Type} (m : List (Bytes × β)) (k x : Bytes) (v : β)
    (h : x ∈ (setAssoc m k v).map Prod.fst) : x ∈ m.map Prod.fst ∨ x = k := by
  induction m with
  | nil =>
    right
    simpa [setAssoc] using h
  | cons kv rest ih =>
    obtain ⟨k', v'⟩ := kv
    by_cases hk : k' = k
    · rw [setAssoc, if_pos hk, List.map_cons] at h
      rcases List.mem_cons.mp h with h | h
      · exact Or.inr h
      · exact Or.inl (by rw [List.map_cons]; exact List.mem_cons.mpr (Or.inr h))
    · rw [setAssoc, if_neg hk, List.map_cons] at h
      rcases List.mem_cons.mp h with h | h
      · exact Or.inl (by rw [List.map_cons]; exact List.mem_cons.mpr (Or.inl h))
      · rcases ih h with h2 | h2
        · exact Or.inl (by rw [List.map_cons]; exact List.mem_cons.mpr (Or.inr h2))
        · exact Or.inr h2

theorem keys_indexGroup_sub (l : List (Bytes × IndexEntry)) :
    ∀ d ∈ (indexGroup l).map Prod.fst, ∃ pe ∈ l, d = (os_path_split pe.1).1 := by
  rw [indexGroup]
  suffices h : ∀ acc : Dirs, ∀ d ∈ (l.foldl (fun dirs pe =>
      dirsInsert dirs (os_path_split pe.1).1 (os_path_split pe.1).2 pe.2) acc).map Prod.fst,
      d ∈ acc.map Prod.fst ∨ ∃ pe ∈ l, d = (os_path_split pe.1).1 by
    intro d hd
    rcases h [] d hd with h' | h'
    · simp at h'
    · exact h'
  induction l with
  | nil => intro acc d hd; exact Or.inl hd
  | cons pe rest ih =>
    intro acc d hd
    rw [List.foldl_cons] at hd
    rcases ih (dirsInsert acc (os_path_split pe.1).1 (os_path_split pe.1).2 pe.2) d hd
      with h' | h'
    · rw [dirsInsert] at h'
      rcases keys_setAssoc_mem acc _ d _ h' with h'' | h''
      · exact Or.inl h''
      · exact Or.inr ⟨pe, by simp, h''⟩
    · obtain ⟨pe', hpe', he⟩ := h'
      exact Or.inr ⟨pe', by simp [hpe'], he⟩

theorem head?_append_of_some (x y : Bytes) (c : Nat) (h : x.head? = some c) :
    (x ++ y).head? = some c := by
  cases x with
  | nil => simp at h
  | cons a as => simpa using h

theorem head?_take (p : Bytes) (i : Nat) (c : Nat) (h : (p.take i).head? = some c) :
    p.head? = some c := by
  cases p with
  | nil => simp at h
  | cons a as =>
    cases i with
    | zero => simp at h
    | succ j => simpa using h

theorem head?_rstrip (l : Bytes) (q : Nat → Bool) (c : Nat)
    (h : ((l.reverse.dropWhile q).reverse).head? = some c) : l.head? = some c := by
  obtain ⟨t, ht⟩ := List.dropWhile_suffix (l := l.reverse) q
  have hl : l = (l.reverse.dropWhile q).reverse ++ t.reverse := by
    have h2 := congrArg List.reverse ht
    simpa using h2.symm
  rw [hl]
  exact head?_append_of_some _ _ _ h

/-- The directory part of a split path starts with the same byte as the path
itself (when it is nonempty). -/
theorem os_path_split_head (p : Bytes) (c : Nat)
    (h : (os_path_split p).1.head? = some c) : p.head? = some c := by
  simp only [os_path_split] at h
  split at h
  · exact head?_take p _ c (head?_rstrip _ _ c h)
  · exact head?_take p _ c h

theorem prefixOf47_head (d : Bytes) (h : ([47] : Bytes).isPrefixOf d = true) :
    d.head? = some 47 := by
  cases d with
  | nil => simp [List.isPrefixOf] at h
  | cons x rest =>
    simp [List.isPrefixOf] at h
    simp [h]

/-- At the root, the subdirectory scan of `_write_tree_recursive` matches
nothing: no key of the grouping starts with `"" + "/"` when the staged paths
are relative. -/
theorem root_subdirs_nil (l : List (Bytes × IndexEntry))
    (hheads : ∀ pe ∈ l, pe.1.head? ≠ some 47) :
    ((indexGroup l).map Prod.fst).filter
      (fun d => (([] : Bytes) ++ [47]).isPrefixOf d && d ≠ ([] : Bytes)) = [] := by
  rw [List.filter_eq_nil_iff]
  intro d hd
  obtain ⟨pe, hpe, rfl⟩ := keys_indexGroup_sub l d hd
  intro hcond
  rw [Bool.and_eq_true] at hcond
  have h47 : (os_path_split pe.1).1.head? = some 47 :=
    prefixOf47_head _ (by simpa using hcond.1)
  exact hheads pe hpe (os_path_split_head pe.1 47 h47)

/-- One unfolding of the tree-builder worker when the subdirectory scan comes
up empty: only the file entries of `path` feed the created tree. -/
theorem writeTreeRecF_no_subdirs (sha1 compress : Bytes → Bytes) (dirs : Dirs)
    (fuel : Nat) (path : Bytes) (fs : ObjectStore)
    (hsub : (dirs.map Prod.fst).filter
      (fun d => (path ++ [47]).isPrefixOf d && d ≠ path) = []) :
    writeTreeRecF sha1 compress dirs (fuel + 1) path fs
      = tree_create sha1 compress fs
          (pySorted entryNameLe
            ((dirsGet dirs path).map (fun fi => (fi.2.mode, fi.1, fi.2.sha1)))) := by
  rw [writeTreeRecF]
  simp only [hsub, List.foldl_nil]

theorem dirsGet_indexGroup_root (l : List (Bytes × IndexEntry))
    (hsplit : (l.map (fun pe => os_path_split pe.1)).Nodup) :
    dirsGet (indexGroup l) [] = dirFilesOf [] l := by
  rw [indexGroup, dirsGet_indexGroup_aux [] l []]
  rw [show dirsGet ([] : Dirs) [] = [] from rfl]
  rw [foldl_setAssoc_fresh (dirFilesOf [] l) [] (dirFilesOf_keys_nodup [] l hsplit)
    (fun k _ => rfl)]
  simp

/-- Stability half of C6: two insertion orders of the same staged entries
produce identical `write_tree` results. -/
theorem write_tree_stable (sha1 compress : Bytes → Bytes)
    (l₁ l₂ : List (Bytes × IndexEntry)) (fs : ObjectStore)
    (hperm : l₁.Perm l₂)
    (hsplit : (l₁.map (fun pe => os_path_split pe.1)).Nodup)
    (hheads : ∀ pe ∈ l₁, pe.1.head? ≠ some 47) :
    write_tree sha1 compress l₁ fs = write_tree sha1 compress l₂ fs := by
  have hsplit₂ : (l₂.map (fun pe => os_path_split pe.1)).Nodup :=
    ((hperm.map (fun pe => os_path_split pe.1)).nodup_iff).mp hsplit
  have hheads₂ : ∀ pe ∈ l₂, pe.1.head? ≠ some 47 := fun pe hpe =>
    hheads pe (hperm.mem_iff.mpr hpe)
  simp only [write_tree]
  rw [writeTreeRecF_no_subdirs sha1 compress (indexGroup l₁) (maxKeyLen (indexGroup l₁))
      [] fs (root_subdirs_nil l₁ hheads),
    writeTreeRecF_no_subdirs sha1 compress (indexGroup l₂) (maxKeyLen (indexGroup l₂))
      [] fs (root_subdirs_nil l₂ hheads₂),
    dirsGet_indexGroup_root l₁ hsplit, dirsGet_indexGroup_root l₂ hsplit₂]
  have hpermroot : (dirFilesOf [] l₁).Perm (dirFilesOf [] l₂) := hperm.filterMap _
  have hpermmap : ((dirFilesOf [] l₁).map
      (fun fi => (fi.2.mode, fi.1, fi.2.sha1))).Perm
      ((dirFilesOf [] l₂).map (fun fi => (fi.2.mode, fi.1, fi.2.sha1))) :=
    hpermroot.map _
  have hnames : (((dirFilesOf [] l₁).map
      (fun fi => (fi.2.mode, fi.1, fi.2.sha1))).map (fun e => e.2.1)).Nodup := by
    rw [List.map_map]
    exact dirFilesOf_keys_nodup [] l₁ hsplit
  rw [pySorted_eq_of_perm _ _ hpermmap hnames]

/-- C6: for injective SHA-1, (a) the tree produced by `Index.write_tree` is
invariant under the order the entries were inserted into the index (entries
are sorted by name before encoding), and (b) for tree-entry lists fed to
`Tree.create` that differ in a single entry — in its name, mode or target
hash — the resulting tree hashes differ. -/
theorem C6_tree_hash_stable_and_sensitive (sha1 compress : Bytes → Bytes)
    (hinj : Function.Injective sha1) :
    (∀ (l₁ l₂ : List (Bytes × IndexEntry)) (fs : ObjectStore),
      l₁.Perm l₂ →
      (l₁.map (fun pe => os_path_split pe.1)).Nodup →
      (∀ pe ∈ l₁, pe.1.head? ≠ some 47) →
      write_tree sha1 compress l₁ fs = write_tree sha1 compress l₂ fs) ∧
    (∀ (pre post : List TreeEntry) (e₁ e₂ : TreeEntry) (fs₁ fs₂ : ObjectStore),
      (∀ e ∈ pre ++ e₁ :: post, entryWf e) → entryWf e₂ → e₁ ≠ e₂ →
      ∃ h₁ s₁ h₂ s₂,
        tree_create sha1 compress fs₁ (pre ++ e₁ :: post) = .ok (h₁, s₁) ∧
        tree_create sha1 compress fs₂ (pre ++ e₂ :: post) = .ok (h₂, s₂) ∧
        h₁ ≠ h₂) :=
  ⟨fun l₁ l₂ fs hperm hsplit hheads =>
      write_tree_stable sha1 compress l₁ l₂ fs hperm hsplit hheads,
    fun pre post e₁ e₂ fs₁ fs₂ hwf hwf2 hne =>
      tree_create_sensitive sha1 compress hinj pre post e₁ e₂ fs₁ fs₂ hwf hwf2 hne⟩

/-- C6 witness: stability on a two-file index inserted in both orders;
sensitivity on two singleton entry lists whose hashes differ. -/
theorem C6_tree_hash_stable_and_sensitive_witness :
    write_tree sha1w (fun x => x)
        [(ascii "b.txt", ⟨ascii "1111111111111111111111111111111111111111", ascii "100644"⟩),
         (ascii "a.txt", ⟨ascii "2222222222222222222222222222222222222222", ascii "100644"⟩)]
        ⟨[], []⟩
      = write_tree sha1w (fun x => x)
        [(ascii "a.txt", ⟨ascii "2222222222222222222222222222222222222222", ascii "100644"⟩),
         (ascii "b.txt", ⟨ascii "1111111111111111111111111111111111111111", ascii "100644"⟩)]
        ⟨[], []⟩ ∧
    (∃ h₁ s₁ h₂ s₂,
      tree_create sha1w (fun x => x) ⟨[], []⟩
          [(ascii "100644", ascii "a.txt",
            ascii "1111111111111111111111111111111111111111")] = .ok (h₁, s₁) ∧
      tree_create sha1w (fun x => x) ⟨[], []⟩
          [(ascii "100644", ascii "a.txt",
            ascii "2222222222222222222222222222222222222222")] = .ok (h₂, s₂) ∧
      h₁ ≠ h₂) := by
  constructor
  · exact (C6_tree_hash_stable_and_sensitive sha1w (fun x => x) sha1w_injective).1
      _ _ _ (by decide) (by decide) (by decide)
  · exact (C6_tree_hash_stable_and_sensitive sha1w (fun x => x) sha1w_injective).2
      [] [] (ascii "100644", ascii "a.txt",
        ascii "1111111111111111111111111111111111111111")
      (ascii "100644", ascii "a.txt",
        ascii "2222222222222222222222222222222222222222")
      ⟨[], []⟩ ⟨[], []⟩ (by decide) (by decide) (by decide)

end SimpleGit
